import Mathlib

set_option maxHeartbeats 1000000

/-!
Verification of the Dofus-DB equipment extractor.

This development gives a shallow embedding of the repository's Python code:

* `src/set_price.py` — the recipe-tree aggregation engine
  (`ingredient_in_equipments`, `handle_ingredient_with_recipe`,
  `handle_ingredient_without_recipe`, `process_recipe_ingredients`,
  `generate_empty_list_of_prices`);
* `src/extract_functions_dofusdb.py` — the effect normalizer
  (`effects_management`), the craftable-item filter (`item_management`),
  the recipe resolver (`get_ingredient_with_id`, `recipe_management`),
  and the sorting pipeline (`group_items_by_level`, `sort_items_by_name`,
  `sort_grouped_items_by_name`, `sort_group_by_level`, `flatten_items`).

Python `dict`s are modelled as insertion-ordered association lists: an
assignment to a fresh key appends at the end, an assignment to an existing
key replaces the value in place, and in-place mutation of a value keeps its
position.  Python integers are modelled as `Int`.
-/

namespace DofusDB

/-! ## Python dictionaries as insertion-ordered association lists -/

/-- Dictionary lookup (`d[k]` / `k in d`): first binding of key `k`. -/
def dlookup {κ α : Type} [DecidableEq κ] : List (κ × α) → κ → Option α
  | [], _ => none
  | p :: ps, k => if p.1 = k then some p.2 else dlookup ps k

/-- In-place mutation of the value bound to `k` (e.g. `d[k]["quantity"] += q`):
the binding keeps its position, every other binding is untouched. -/
def dmodify {κ α : Type} [DecidableEq κ] (d : List (κ × α)) (k : κ) (f : α → α) :
    List (κ × α) :=
  d.map (fun p => if p.1 = k then (p.1, f p.2) else p)

/-- Insertion of a fresh key (`d[k] = v` with `k not in d`): appends at the end. -/
def dinsert {κ α : Type} [DecidableEq κ] (d : List (κ × α)) (k : κ) (v : α) :
    List (κ × α) :=
  d ++ [(k, v)]

/-- Python assignment `d[k] = v`: replaces in place when the key exists,
otherwise appends at the end. -/
def dset {κ α : Type} [DecidableEq κ] (d : List (κ × α)) (k : κ) (v : α) :
    List (κ × α) :=
  if (dlookup d k).isSome then dmodify d k (fun _ => v) else dinsert d k v

/-- Lookup in a two-level dictionary (`d[j][n]`). -/
def dlookup2 {α : Type} (d : List (String × List (String × α))) (j n : String) :
    Option α :=
  match dlookup d j with
  | none => none
  | some items => dlookup items n

/-! ## Data model of the aggregation engine (`src/set_price.py`)

A resolved ingredient (one element of a `recipe["ingredients"]` list in the
extraction result) carries `name`, `quantity`, `img` and `hasRecipe`; when
`hasRecipe` is true it also carries `recipe = {job, ingredients}` (the
resolver `recipe_management` produces the sub-recipe exactly when
`hasRecipe` is true).  `hasRecipe` is represented by the constructor:
`leaf` is an ingredient with `hasRecipe = False`, `node` one with
`hasRecipe = True`, whose `job` and `subs` fields are
`ingredient["recipe"]["job"]` and `ingredient["recipe"]["ingredients"]`. -/

mutual
inductive Ingredient : Type where
  | leaf (name : String) (quantity : Int) (img : String) : Ingredient
  | node (name : String) (quantity : Int) (img : String) (job : String)
      (subs : IngredientList) : Ingredient
inductive IngredientList : Type where
  | nil : IngredientList
  | cons (head : Ingredient) (tail : IngredientList) : IngredientList
end

/-- Entry of the ingredients ledger: `{"price": int, "quantity": int, "img": str}`. -/
structure IngredientEntry : Type where
  price : Int
  quantity : Int
  img : String
deriving DecidableEq, Repr

/-- Entry of the recipes ledger:
`{"price": int, "job": str, "quantity": int, "is_equipment": bool, "img": str}`. -/
structure RecipeEntry : Type where
  price : Int
  job : String
  quantity : Int
  is_equipment : Bool
  img : String
deriving DecidableEq, Repr

/-- Entry of the equipments ledger:
`{"price": int, "breakage_rate": int, "quantity": int, "img": str}`. -/
structure EquipmentEntry : Type where
  price : Int
  breakage_rate : Int
  quantity : Int
  img : String
deriving DecidableEq, Repr

/-- The three mutable dictionaries threaded through
`process_recipe_ingredients`: `ingredients`, `recipes` and `equipments`
(the latter two-level: job name, then equipment name). -/
structure AggState : Type where
  ingredients : List (String × IngredientEntry)
  recipes : List (String × RecipeEntry)
  equipments : List (String × List (String × EquipmentEntry))
deriving DecidableEq, Repr

/-- `ingredient_in_equipments` (set_price.py, lines 8 to 19):
`job in equipments and ingredient_name in equipments[job]`. -/
def ingredient_in_equipments (ingredient_name : String) (job : String)
    (equipments : List (String × List (String × EquipmentEntry))) : Bool :=
  match dlookup equipments job with
  | none => false
  | some items => (dlookup items ingredient_name).isSome

/-- Body of `handle_ingredient_without_recipe` (set_price.py, lines 51 to 64):
upsert of the ingredients ledger — create `{"price": -1, "quantity": q, "img": img}`
on first sighting, else `ingredients[name]["quantity"] += quantity`. -/
def handle_ingredient_without_recipe (name : String) (quantity : Int) (img : String)
    (ingredients : List (String × IngredientEntry)) : List (String × IngredientEntry) :=
  match dlookup ingredients name with
  | none => dinsert ingredients name ⟨-1, quantity, img⟩
  | some _ => dmodify ingredients name (fun e => { e with quantity := e.quantity + quantity })

/-- Upsert of the recipes ledger (set_price.py, lines 39 to 48): on first
sighting create the entry with `quantity + 1` when `is_equipment` holds,
on a repeat sighting only `recipes[name]["quantity"] += quantity`. -/
def recipes_upsert (name : String) (quantity : Int) (img : String) (job : String)
    (is_equipment : Bool) (recipes : List (String × RecipeEntry)) :
    List (String × RecipeEntry) :=
  match dlookup recipes name with
  | none =>
    dinsert recipes name
      ⟨-1, job, if is_equipment then quantity + 1 else quantity, is_equipment, img⟩
  | some _ => dmodify recipes name (fun e => { e with quantity := e.quantity + quantity })

/-- Equipment-quantity bump of `handle_ingredient_with_recipe`
(set_price.py, line 38): `equipments[job][ingredient_name]["quantity"] += quantity`,
performed exactly when `is_equipment` holds. -/
def equipments_bump (name : String) (quantity : Int) (job : String)
    (equipments : List (String × List (String × EquipmentEntry))) :
    List (String × List (String × EquipmentEntry)) :=
  dmodify equipments job
    (fun items => dmodify items name (fun e => { e with quantity := e.quantity + quantity }))

/-- The loop of `process_recipe_ingredients` (set_price.py, lines 67 to 80)
with the body of `handle_ingredient_with_recipe` (lines 22 to 48) inlined at
the `hasRecipe` branch: recurse into `ingredient["recipe"]["ingredients"]`,
then read `is_equipment`, bump the equipment quantity when it holds, and
upsert the recipes ledger.  `handle_ingredient_with_recipe` below is the
named form of that branch; `process_cons_node` checks the two agree. -/
def process_recipe_ingredients : IngredientList → AggState → AggState
  | .nil, s => s
  | .cons (.leaf name quantity img) rest, s =>
    process_recipe_ingredients rest
      { s with ingredients := handle_ingredient_without_recipe name quantity img s.ingredients }
  | .cons (.node name quantity img job subs) rest, s =>
    let s1 := process_recipe_ingredients subs s
    let is_equipment := ingredient_in_equipments name job s1.equipments
    let s2 :=
      if is_equipment then
        { s1 with equipments := equipments_bump name quantity job s1.equipments }
      else s1
    process_recipe_ingredients rest
      { s2 with recipes := recipes_upsert name quantity img job is_equipment s2.recipes }

/-- `handle_ingredient_with_recipe` (set_price.py, lines 22 to 48). -/
def handle_ingredient_with_recipe (name : String) (quantity : Int) (img : String)
    (job : String) (subs : IngredientList) (s : AggState) : AggState :=
  let s1 := process_recipe_ingredients subs s
  let is_equipment := ingredient_in_equipments name job s1.equipments
  let s2 :=
    if is_equipment then
      { s1 with equipments := equipments_bump name quantity job s1.equipments }
    else s1
  { s2 with recipes := recipes_upsert name quantity img job is_equipment s2.recipes }

/-! ## The forest handed to `generate_empty_list_of_prices`

`result` is a list of job dictionaries `{"name": str, "items": [...]}`; each
item is `{"name", "level", "effects", "img", "recipes"}` where `recipes` is
the resolved top recipe `{"job", "ingredients"}`.  Only the fields the
aggregation engine reads (`name`, `img`, `recipes.ingredients`) are carried. -/

structure AggItem : Type where
  name : String
  img : String
  recipeJob : String
  recipeIngredients : IngredientList

structure AggJob : Type where
  name : String
  items : List AggItem

/-- Equipment-ledger seeding of `generate_empty_list_of_prices`
(set_price.py, lines 97 to 102): one entry
`{"price": -1, "breakage_rate": -1, "quantity": 1, "img": item["img"]}` per
item, grouped per job name. -/
def seed_equipments (result : List AggJob) :
    List (String × List (String × EquipmentEntry)) :=
  result.foldl
    (fun eqs job =>
      dset eqs job.name
        (job.items.foldl (fun its it => dset its it.name ⟨-1, -1, 1, it.img⟩) []))
    []

/-- `generate_empty_list_of_prices` (set_price.py, lines 83 to 113), file
input and output stripped: the `if True:` branch always recomputes the three
ledgers from scratch, seeding the equipments ledger, then running
`process_recipe_ingredients` on `item["recipes"]["ingredients"]` of every
item of every job. -/
def generate_empty_list_of_prices (result : List AggJob) : AggState :=
  result.foldl
    (fun s job =>
      job.items.foldl (fun s it => process_recipe_ingredients it.recipeIngredients s) s)
    ⟨[], [], seed_equipments result⟩

/-! ## Occurrences

The ledger contents are characterised through the list of ingredient
occurrences in recording order: `process_recipe_ingredients` records a
`hasRecipe` ingredient after its sub-recipe (post-order), a plain ingredient
at its position.  `rjob` is `some job` for a `hasRecipe` occurrence and
`none` otherwise. -/

structure Occurrence : Type where
  name : String
  quantity : Int
  img : String
  rjob : Option String
deriving DecidableEq, Repr

/-- Occurrences of an ingredient list in recording order (post-order). -/
def ingOccs : IngredientList → List Occurrence
  | .nil => []
  | .cons (.leaf name quantity img) rest =>
    ⟨name, quantity, img, none⟩ :: ingOccs rest
  | .cons (.node name quantity img job subs) rest =>
    ingOccs subs ++ ⟨name, quantity, img, some job⟩ :: ingOccs rest

/-- Occurrences contributed by a whole `result` forest, in recording order. -/
def forest_occurrences (result : List AggJob) : List Occurrence :=
  result.flatMap (fun job => job.items.flatMap (fun it => ingOccs it.recipeIngredients))

/-- Recognises an occurrence of name `n` without a recipe. -/
def isLeafOcc (n : String) (o : Occurrence) : Bool :=
  o.rjob.isNone && decide (o.name = n)

/-- Recognises an occurrence of name `n` with a recipe. -/
def isNodeOcc (n : String) (o : Occurrence) : Bool :=
  o.rjob.isSome && decide (o.name = n)

/-- Recognises an occurrence of name `n` with a recipe of job `j`. -/
def isJobOcc (j n : String) (o : Occurrence) : Bool :=
  decide (o.rjob = some j) && decide (o.name = n)

/-- Sum of the quantities of the occurrences selected by `p`. -/
def occQuantitySum (p : Occurrence → Bool) (occs : List Occurrence) : Int :=
  ((occs.filter p).map (fun o => o.quantity)).sum

/-- Effect of one occurrence on the ingredients ledger. -/
def stepIngredients (ingredients : List (String × IngredientEntry))
    (o : Occurrence) : List (String × IngredientEntry) :=
  match o.rjob with
  | none => handle_ingredient_without_recipe o.name o.quantity o.img ingredients
  | some _ => ingredients

/-- Effect of one occurrence on the recipes ledger, with the equipment
classification abstracted into `isEq` (legitimate because processing never
adds or removes an equipments-ledger key). -/
def stepRecipes (isEq : String → String → Bool)
    (recipes : List (String × RecipeEntry)) (o : Occurrence) :
    List (String × RecipeEntry) :=
  match o.rjob with
  | none => recipes
  | some job => recipes_upsert o.name o.quantity o.img job (isEq o.name job) recipes

/-- Effect of one occurrence on the equipments ledger. -/
def stepEquipments (equipments : List (String × List (String × EquipmentEntry)))
    (o : Occurrence) : List (String × List (String × EquipmentEntry)) :=
  match o.rjob with
  | none => equipments
  | some job =>
    if ingredient_in_equipments o.name job equipments then
      equipments_bump o.name o.quantity job equipments
    else equipments

/-! ## Concrete forests used by the scenario theorems

`swordHiltForest` realises the Sword and Hilt scenario: job "Smith" with
the equipment item "Sword" requiring 2 "Iron Ingot" (no sub-recipe) and
1 "Hilt" (sub-recipe of job "Smith" requiring 3 "Iron Ingot"), with "Hilt"
also listed as a top-level equipment item carrying that same recipe (every
top-level craftable item in a `result` forest carries its resolved
recipe, which `generate_empty_list_of_prices` traverses). -/

def swordHiltForest : List AggJob :=
  [⟨"Smith",
    [⟨"Sword", "sword.png", "Smith",
      .cons (.leaf "Iron Ingot" 2 "iron.png")
        (.cons (.node "Hilt" 1 "hilt.png" "Smith"
          (.cons (.leaf "Iron Ingot" 3 "iron.png") .nil)) .nil)⟩,
     ⟨"Hilt", "hilt.png", "Smith",
      .cons (.leaf "Iron Ingot" 3 "iron.png") .nil⟩]⟩]

/-- A forest whose single recipe lists the same ingredient name twice with
two different images, in the order `a.png` then `b.png`. -/
def permForestA : List AggJob :=
  [⟨"J", [⟨"E", "e.png", "J",
    .cons (.leaf "X" 1 "a.png") (.cons (.leaf "X" 1 "b.png") .nil)⟩]⟩]

/-- The same forest as `permForestA` with the two ingredients of the recipe
swapped. -/
def permForestB : List AggJob :=
  [⟨"J", [⟨"E", "e.png", "J",
    .cons (.leaf "X" 1 "b.png") (.cons (.leaf "X" 1 "a.png") .nil)⟩]⟩]

/-- A forest whose single recipe lists two distinct ingredients, "X" then
"Y", with consistent per-name data. -/
def permForestC : List AggJob :=
  [⟨"J", [⟨"E", "e.png", "J",
    .cons (.leaf "X" 1 "x.png") (.cons (.leaf "Y" 2 "y.png") .nil)⟩]⟩]

/-- The same forest as `permForestC` with the two ingredients of the recipe
swapped. -/
def permForestD : List AggJob :=
  [⟨"J", [⟨"E", "e.png", "J",
    .cons (.leaf "Y" 2 "y.png") (.cons (.leaf "X" 1 "x.png") .nil)⟩]⟩]

/-- Disk contents of the three ledger files written and (in dead code) read
by `generate_empty_list_of_prices`; `none` models a missing file. -/
structure LedgerFiles : Type where
  equipments_file : Option (List (String × List (String × EquipmentEntry)))
  ingredients_price_file : Option (List (String × IngredientEntry))
  recipes_price_file : Option (List (String × RecipeEntry))
deriving DecidableEq

/-- `generate_empty_list_of_prices` (set_price.py, lines 83 to 113) with its
file traffic modelled: the literal `if True:` condition means the function
always recomputes the three ledgers from scratch and writes them out
(`json_writer`); the `else:` branch, which would read the previously
written files (`json_reader`, with a `FileError` on a missing file), is
dead code — `getD []` stands in for those unreachable reads. -/
def generate_empty_list_of_prices_with_files (files : LedgerFiles)
    (result : List AggJob) : AggState × LedgerFiles :=
  if true then
    let s := generate_empty_list_of_prices result
    (s, ⟨some s.equipments, some s.ingredients, some s.recipes⟩)
  else
    (⟨files.ingredients_price_file.getD [], files.recipes_price_file.getD [],
      files.equipments_file.getD []⟩, files)

/-! ## Effect normalizer and craftable-item filter
(`src/extract_functions_dofusdb.py`)

The network fetch `get_effect_name` composed with the regex cleanup
`clean_effect_name` — both external to the claims (an HTTP call and a
string utility) — is modelled by an environment `cleanName : Int → String`
giving the cleaned French effect name for an effect identifier.  The
allowlist read from `data/json/effectsName.json` is the parameter
`effects_name`. -/

/-- A raw effect record of an API item; `fromValue` and `toValue` are the
record's `"from"` and `"to"` fields (`from` is reserved in Lean). -/
structure RawEffect : Type where
  effectId : Int
  fromValue : Int
  toValue : Int
deriving DecidableEq, Repr

/-- A cleaned effect as appended by `effects_management`:
`{"name": str, "value1": int, "value2": int}`. -/
structure Effect : Type where
  name : String
  value1 : Int
  value2 : Int
deriving DecidableEq, Repr

/-- `effects_management` (extract_functions_dofusdb.py, lines 183 to 205):
per raw effect, read the value pair, override it to `(1, 1)` when the
cleaned name is "Arme de chasse", skip the effect when the low value is
negative, or both values are zero, or the name is not in the allowlist,
collapse `value2 == 0` to `value1`, and append. -/
def effects_management (cleanName : Int → String) (effects_name : List String) :
    List RawEffect → List Effect
  | [] => []
  | effect :: rest =>
    let effect_val1 := effect.fromValue
    let effect_val2 := effect.toValue
    let effect_name := cleanName effect.effectId
    let vals : Int × Int :=
      if effect_name = "Arme de chasse" then (1, 1) else (effect_val1, effect_val2)
    if vals.1 < 0 ∨ (vals.1 = 0 ∧ vals.2 = 0) ∨ effect_name ∉ effects_name then
      effects_management cleanName effects_name rest
    else
      ⟨effect_name, vals.1, if vals.2 = 0 then vals.1 else vals.2⟩ ::
        effects_management cleanName effects_name rest

/-- Modelled from the words of claim C6 and the spec (§3, Effect): keep
exactly the effects whose cleaned name is in the allowlist and whose low
bound is non-negative, collapsing a single-value effect
(`value_high == 0`) so both values agree, with "Arme de chasse" overridden
to `(1, 1)` regardless of its raw values.  (No clause drops a `(0, 0)`
pair.) -/
def effects_management_claim (cleanName : Int → String) (effects_name : List String)
    (effects : List RawEffect) : List Effect :=
  effects.filterMap (fun effect =>
    let effect_name := cleanName effect.effectId
    let vals : Int × Int :=
      if effect_name = "Arme de chasse" then (1, 1)
      else (effect.fromValue, effect.toValue)
    if 0 ≤ vals.1 ∧ effect_name ∈ effects_name then
      some ⟨effect_name, vals.1, if vals.2 = 0 then vals.1 else vals.2⟩
    else none)

/-- The dictionary appended to `jobs_data["items"]` by `item_management`;
`recipes` carries the result of the recipe resolution for the item's
identifier, of abstract type `ρ`. -/
structure ItemData (ρ : Type) : Type where
  name : String
  level : Int
  effects : List Effect
  img : String
  recipes : ρ

/-- Fields of an API item record read by `item_management`
(extract_functions_dofusdb.py, lines 277 to 290); `name` is
`item["name"]["fr"]`. -/
structure ApiItem : Type where
  id : Int
  name : String
  level : Int
  img : String
  hasRecipe : Bool
  isDestructible : Bool
  secretRecipe : Bool
  effects : List RawEffect
deriving DecidableEq, Repr

/-- `item_management` (extract_functions_dofusdb.py, lines 277 to 290):
when the item has a recipe, is destructible and is not secret-recipe,
clean its effects; return nothing when no effect survives, otherwise the
item record destined for `jobs_data["items"]`.  The recipe resolution
`recipe_management(item["id"])` is the environment `recipeFor`. -/
def item_management {ρ : Type} (cleanName : Int → String)
    (effects_name : List String) (recipeFor : Int → ρ) (item : ApiItem) :
    Option (ItemData ρ) :=
  if item.hasRecipe ∧ item.isDestructible ∧ ¬ item.secretRecipe then
    let effects := effects_management cleanName effects_name item.effects
    if effects.length = 0 then none
    else some ⟨item.name, item.level, effects, item.img, recipeFor item.id⟩
  else none

/-- `items_management` (extract_functions_dofusdb.py, lines 293 to 301):
run `item_management` over `data["data"]`, collecting the appended items in
order. -/
def items_management {ρ : Type} (cleanName : Int → String)
    (effects_name : List String) (recipeFor : Int → ρ) :
    List ApiItem → List (ItemData ρ)
  | [] => []
  | item :: rest =>
    match item_management cleanName effects_name recipeFor item with
    | none => items_management cleanName effects_name recipeFor rest
    | some d => d :: items_management cleanName effects_name recipeFor rest

/-! ## Recipe resolver (`src/extract_functions_dofusdb.py`, lines 227 to 274)

The remote fetch `get_recipe_data(item_id)` is modelled by a total
environment `env : Int → RecipeData` (a fixed remote catalog in which every
fetch succeeds; `APIError` on a non-success response is a separate failure
mode outside this claim).  The Python recursion carries no termination
measure — a cyclic catalog overflows the stack — so the embedding spends
one unit of `fuel` per processed ingredient and returns the distinguished
`outOfFuel` error when it runs out; statements about the resolver assume
the run did not return `outOfFuel`.  Out-of-range accesses to
`quantities[i]` (an `IndexError` in Python; the API contract makes the two
arrays parallel) are modelled by `getD`/`headD` with default 0. -/

/-- An ingredient record inside a recipe response; `name` is
`ingredient["name"]["fr"]`. -/
structure IngredientRecord : Type where
  id : Int
  name : String
  hasRecipe : Bool
  secretRecipe : Bool
deriving DecidableEq, Repr

/-- A recipe response: `{"job": {"name": {"fr": ..}}, "ingredientIds": [..],
"quantities": [..], "ingredients": [..]}`. -/
structure RecipeData : Type where
  job : String
  ingredientIds : List Int
  quantities : List Int
  ingredients : List IngredientRecord
deriving DecidableEq, Repr

/-- Failure modes of the embedded resolver: the `IngredientNotFound`
exception of the source, and exhaustion of the embedding's fuel. -/
inductive ResolveError : Type where
  | ingredientNotFound : ResolveError
  | outOfFuel : ResolveError
deriving DecidableEq, Repr

/-- `get_ingredient_with_id` (extract_functions_dofusdb.py, lines 227 to
241): return the first ingredient record with the given identifier, or
raise `IngredientNotFound`. -/
def get_ingredient_with_id (ingredient_id : Int) :
    List IngredientRecord → Except ResolveError IngredientRecord
  | [] => .error .ingredientNotFound
  | ingredient :: rest =>
    if ingredient.id = ingredient_id then .ok ingredient
    else get_ingredient_with_id ingredient_id rest

/-- A resolved ingredient as appended by `recipe_management`:
`{"name", "quantity", "hasRecipe", "secretRecipe", "recipe"}`, where
`recipe` is `(job, ingredients)` of the resolved sub-recipe when
`hasRecipe` holds and nothing otherwise. -/
inductive ResIngredient : Type where
  | mk (name : String) (quantity : Int) (hasRecipe : Bool) (secretRecipe : Bool)
      (recipe : Option (String × List ResIngredient)) : ResIngredient

def ResIngredient.name : ResIngredient → String
  | .mk n _ _ _ _ => n

def ResIngredient.quantity : ResIngredient → Int
  | .mk _ q _ _ _ => q

def ResIngredient.hasRecipe : ResIngredient → Bool
  | .mk _ _ h _ _ => h

def ResIngredient.secretRecipe : ResIngredient → Bool
  | .mk _ _ _ s _ => s

def ResIngredient.recipe : ResIngredient → Option (String × List ResIngredient)
  | .mk _ _ _ _ r => r

/-- The ingredient loop of `recipe_management`
(extract_functions_dofusdb.py, lines 257 to 273), iterating over
`ingredientIds` with the parallel `quantities`: locate each identifier's
record with `get_ingredient_with_id` (errors abort the whole resolution),
resolve its sub-recipe when `hasRecipe` holds — the `hasRecipe` branch is
the body of `recipe_management env fuel ingredient_id` inlined, see
`rm_ingredients_cons` — and prepend the resolved entry. -/
def rm_ingredients (env : Int → RecipeData) :
    Nat → List Int → List Int → List IngredientRecord →
    Except ResolveError (List ResIngredient)
  | _, [], _, _ => .ok []
  | 0, _ :: _, _, _ => .error .outOfFuel
  | fuel + 1, ingredient_id :: ids, quantities, ingredients =>
    match get_ingredient_with_id ingredient_id ingredients with
    | .error e => .error e
    | .ok ingredient_data =>
      let sub : Except ResolveError (Option (String × List ResIngredient)) :=
        if ingredient_data.hasRecipe then
          match rm_ingredients env fuel (env ingredient_id).ingredientIds
              (env ingredient_id).quantities (env ingredient_id).ingredients with
          | .error e => .error e
          | .ok ingredients2 => .ok (some ((env ingredient_id).job, ingredients2))
        else .ok none
      match sub with
      | .error e => .error e
      | .ok ingredient_recipe =>
        match rm_ingredients env fuel ids quantities.tail ingredients with
        | .error e => .error e
        | .ok rest =>
          .ok (⟨ingredient_data.name, quantities.headD 0, ingredient_data.hasRecipe,
                ingredient_data.secretRecipe, ingredient_recipe⟩ :: rest)

/-- `recipe_management` (extract_functions_dofusdb.py, lines 244 to 274):
fetch the recipe data of the item and resolve every listed ingredient,
returning `(job, ingredients)`; an `IngredientNotFound` raised anywhere
aborts the whole resolution. -/
def recipe_management (env : Int → RecipeData) (fuel : Nat) (item_id : Int) :
    Except ResolveError (String × List ResIngredient) :=
  match rm_ingredients env fuel (env item_id).ingredientIds
      (env item_id).quantities (env item_id).ingredients with
  | .error e => .error e
  | .ok l => .ok ((env item_id).job, l)

/-- The resolution of the ingredient list `(ids, recs)` of some recipe in
the catalog `env` raises `IngredientNotFound`: either a listed identifier
has no record in `recs`, or the recipe of a listed `hasRecipe` ingredient
transitively does. -/
inductive LoopINF (env : Int → RecipeData) :
    List Int → List IngredientRecord → Prop where
  | headMissing (iid : Int) (ids : List Int) (recs : List IngredientRecord)
      (hmiss : get_ingredient_with_id iid recs = .error .ingredientNotFound) :
      LoopINF env (iid :: ids) recs
  | headSub (iid : Int) (ids : List Int) (recs : List IngredientRecord)
      (r : IngredientRecord)
      (hfound : get_ingredient_with_id iid recs = .ok r)
      (hrec : r.hasRecipe = true)
      (hsub : LoopINF env (env iid).ingredientIds (env iid).ingredients) :
      LoopINF env (iid :: ids) recs
  | tail (iid : Int) (ids : List Int) (recs : List IngredientRecord)
      (hrest : LoopINF env ids recs) :
      LoopINF env (iid :: ids) recs

/-- Resolution of `item_id` against the catalog `env` encounters a missing
ingredient identifier somewhere. -/
def RaisesINF (env : Int → RecipeData) (item_id : Int) : Prop :=
  LoopINF env (env item_id).ingredientIds (env item_id).ingredients

/-- A one-recipe catalog whose single recipe lists ingredient identifier 7
but has an empty ingredient-record list. -/
def missingCatalog : Int → RecipeData :=
  fun _ => ⟨"Forgeron", [7], [2], []⟩

/-! ## Sorting pipeline of `job_management`
(`src/extract_functions_dofusdb.py`, lines 27 to 91 and line 353)

Python `sorted` is a stable sort; it is modelled by `List.mergeSort`,
which is also stable, so the two agree as functions of the key.  Python
`str.lower()` is `String.toLower`, and string comparison is the
lexicographic order on strings. -/

/-- The fields of a fetched item read by the sorting pipeline. -/
structure ExtractedItem : Type where
  name : String
  level : Int
  img : String
deriving DecidableEq, Repr

/-- `group_items_by_level` (lines 27 to 41): group the items of
`category_data["items"]` into a dictionary keyed by level, first-appearance
key order, items appended in input order. -/
def group_items_by_level (items : List ExtractedItem) :
    List (Int × List ExtractedItem) :=
  items.foldl
    (fun grouped_items item =>
      let grouped_items :=
        if (dlookup grouped_items item.level).isSome then grouped_items
        else dinsert grouped_items item.level []
      dmodify grouped_items item.level (fun l => l ++ [item]))
    []

/-- `sort_items_by_name` (lines 44 to 52):
`sorted(tab, key=lambda x: x["name"].lower())`. -/
def sort_items_by_name (tab : List ExtractedItem) : List ExtractedItem :=
  tab.mergeSort (fun a b => decide (a.name.toLower ≤ b.name.toLower))

/-- `sort_grouped_items_by_name` (lines 55 to 66): sort each level's item
list by name, keeping the key order. -/
def sort_grouped_items_by_name (grouped_items : List (Int × List ExtractedItem)) :
    List (Int × List ExtractedItem) :=
  grouped_items.map (fun p => (p.1, sort_items_by_name p.2))

/-- `sort_group_by_level` (lines 69 to 77):
`dict(sorted(grouped_items.items(), key=lambda item: item[0], reverse=True))`
— stable sort of the `(level, items)` pairs by level descending. -/
def sort_group_by_level (grouped_items : List (Int × List ExtractedItem)) :
    List (Int × List ExtractedItem) :=
  grouped_items.mergeSort (fun a b => decide (b.1 ≤ a.1))

/-- `flatten_items` (lines 80 to 91): concatenate the groups' item lists in
key order. -/
def flatten_items (grouped_items : List (Int × List ExtractedItem)) :
    List ExtractedItem :=
  (grouped_items.map (fun p => p.2)).flatten

/-- The composed pipeline applied to `jobs_data["items"]` by
`job_management` (line 353). -/
def job_items_pipeline (items : List ExtractedItem) : List ExtractedItem :=
  flatten_items (sort_group_by_level (sort_grouped_items_by_name
    (group_items_by_level items)))

/-! ## Theorems -/

theorem dlookup_dmodify {κ α : Type} [DecidableEq κ]
    (d : List (κ × α)) (k : κ) (f : α → α) (k2 : κ) :
    dlookup (dmodify d k f) k2 =
      if k2 = k then (dlookup d k2).map f else dlookup d k2 := by
  induction d with
  | nil => simp only [dmodify, List.map_nil, dlookup]; split <;> rfl
  | cons p ps ih =>
    simp only [dmodify, List.map_cons] at ih ⊢
    by_cases h1 : p.1 = k
    · by_cases h2 : p.1 = k2
      · have hk : k2 = k := h2.symm.trans h1
        simp [dlookup, h1, h2, hk]
      · have hk : ¬ (k = k2) := fun hh => h2 (h1.trans hh)
        have hk2 : ¬ (k2 = k) := fun hh => hk hh.symm
        simp [dlookup, h1, h2, hk, hk2, ih]
    · by_cases h2 : p.1 = k2
      · have hk : ¬ (k2 = k) := fun hh => h1 (h2.trans hh)
        simp [dlookup, h1, h2, hk]
      · simp [dlookup, h1, h2, ih]

theorem dlookup_dinsert {κ α : Type} [DecidableEq κ]
    (d : List (κ × α)) (k : κ) (v : α) (k2 : κ) :
    dlookup (dinsert d k v) k2 =
      match dlookup d k2 with
      | some x => some x
      | none => if k2 = k then some v else none := by
  induction d with
  | nil =>
    simp only [dinsert, List.nil_append, dlookup]
    by_cases h : k = k2
    · simp [h]
    · have h2 : ¬ (k2 = k) := fun hh => h hh.symm
      simp [h, h2]
  | cons p ps ih =>
    by_cases h : p.1 = k2 <;> simp only [dlookup, dinsert, List.cons_append, h] at ih ⊢ <;>
      simp [h, ih]

theorem dlookup_dset {κ α : Type} [DecidableEq κ]
    (d : List (κ × α)) (k : κ) (v : α) (k2 : κ) :
    dlookup (dset d k v) k2 = if k2 = k then some v else dlookup d k2 := by
  unfold dset
  by_cases hk : (dlookup d k).isSome
  · rw [if_pos hk, dlookup_dmodify]
    by_cases h : k2 = k
    · subst h
      obtain ⟨x, hx⟩ := Option.isSome_iff_exists.mp hk
      simp [hx]
    · simp [h]
  · rw [if_neg hk, dlookup_dinsert]
    by_cases h : k2 = k
    · subst h
      have : dlookup d k2 = none := Option.not_isSome_iff_eq_none.mp hk
      simp [this]
    · cases hx : dlookup d k2 <;> simp [h, hx]

theorem process_cons_node (name : String) (quantity : Int) (img : String)
    (job : String) (subs rest : IngredientList) (s : AggState) :
    process_recipe_ingredients (.cons (.node name quantity img job subs) rest) s =
      process_recipe_ingredients rest (handle_ingredient_with_recipe name quantity img job subs s) :=
  rfl

theorem process_cons_leaf (name : String) (quantity : Int) (img : String)
    (rest : IngredientList) (s : AggState) :
    process_recipe_ingredients (.cons (.leaf name quantity img) rest) s =
      process_recipe_ingredients rest
        { s with ingredients := handle_ingredient_without_recipe name quantity img s.ingredients } :=
  rfl

theorem ingredient_in_equipments_bump (n j m j2 : String) (q : Int)
    (eqs : List (String × List (String × EquipmentEntry))) :
    ingredient_in_equipments n j (equipments_bump m q j2 eqs) =
      ingredient_in_equipments n j eqs := by
  unfold ingredient_in_equipments equipments_bump
  rw [dlookup_dmodify]
  by_cases hj : j = j2
  · cases hx : dlookup eqs j <;> simp [hj, hx]
    rw [dlookup_dmodify]
    by_cases hn : n = m
    · cases hy : dlookup _ n <;> simp_all
    · simp [hn]
  · simp [hj]

theorem ingredient_in_equipments_stepEquipments (n j : String)
    (eqs : List (String × List (String × EquipmentEntry))) (o : Occurrence) :
    ingredient_in_equipments n j (stepEquipments eqs o) =
      ingredient_in_equipments n j eqs := by
  unfold stepEquipments
  cases o.rjob with
  | none => rfl
  | some job =>
    by_cases h : ingredient_in_equipments o.name job eqs <;>
      simp [h, ingredient_in_equipments_bump]

/-- Processing an ingredient list never changes which `(job, name)` pairs are
present in the equipments ledger. -/
theorem ingredient_in_equipments_process (l : IngredientList) (s : AggState)
    (n j : String) :
    ingredient_in_equipments n j (process_recipe_ingredients l s).equipments =
      ingredient_in_equipments n j s.equipments := by
  induction l, s using process_recipe_ingredients.induct with
  | case1 s => rfl
  | case2 name quantity img rest s ih => rw [process_cons_leaf, ih]
  | case3 name quantity img job subs rest s s1 iseq s2 ihsubs ihrest =>
    rw [process_cons_node]
    have h2 : ingredient_in_equipments n j
        (if iseq = true then
          { s1 with equipments := equipments_bump name quantity job s1.equipments }
         else s1).equipments = ingredient_in_equipments n j s.equipments := by
      by_cases h : iseq = true
      · rw [if_pos h]
        exact (ingredient_in_equipments_bump n j name job quantity s1.equipments).trans ihsubs
      · rw [if_neg h]
        exact ihsubs
    exact ihrest.trans h2

/-- Decomposition: processing an ingredient list acts on each of the three
ledgers as the fold of the per-occurrence steps over the recording-order
occurrence list.  The recipes step takes any predicate `isEq` that agrees
with equipment membership in the starting state; by
`ingredient_in_equipments_process` it then agrees at every intermediate
state. -/
theorem process_components (l : IngredientList) (s : AggState)
    (isEq : String → String → Bool)
    (hiso : ∀ n j, isEq n j = ingredient_in_equipments n j s.equipments) :
    process_recipe_ingredients l s =
      ⟨(ingOccs l).foldl stepIngredients s.ingredients,
       (ingOccs l).foldl (stepRecipes isEq) s.recipes,
       (ingOccs l).foldl stepEquipments s.equipments⟩ := by
  induction l, s using process_recipe_ingredients.induct generalizing isEq with
  | case1 s => rfl
  | case2 name quantity img rest s ih =>
    rw [process_cons_leaf, ih isEq hiso]
    rfl
  | case3 name quantity img job subs rest s s1 iseq s2 ihsubs ihrest =>
    have hs1 : s1 = ⟨(ingOccs subs).foldl stepIngredients s.ingredients,
        (ingOccs subs).foldl (stepRecipes isEq) s.recipes,
        (ingOccs subs).foldl stepEquipments s.equipments⟩ := ihsubs isEq hiso
    have hmem1 : ∀ n j, ingredient_in_equipments n j s1.equipments
        = ingredient_in_equipments n j s.equipments := fun n j =>
      ingredient_in_equipments_process subs s n j
    have hiseq : iseq = isEq name job := by
      rw [hiso name job, ← hmem1 name job]
    have hs2 : s2 = (if iseq = true then
        { s1 with equipments := equipments_bump name quantity job s1.equipments }
        else s1) := rfl
    have hs2i : s2.ingredients = s1.ingredients := by
      rw [hs2]; by_cases h : iseq = true <;> simp [h]
    have hs2r : s2.recipes = s1.recipes := by
      rw [hs2]; by_cases h : iseq = true <;> simp [h]
    have hs2e : s2.equipments =
        (if iseq = true then equipments_bump name quantity job s1.equipments
         else s1.equipments) := by
      rw [hs2]; by_cases h : iseq = true <;> simp [h]
    have hmem2 : ∀ n j, ingredient_in_equipments n j s2.equipments
        = ingredient_in_equipments n j s.equipments := by
      intro n j
      rw [hs2e]
      by_cases h : iseq = true
      · rw [if_pos h]
        exact (ingredient_in_equipments_bump n j name job quantity s1.equipments).trans
          (hmem1 n j)
      · rw [if_neg h]
        exact hmem1 n j
    have hiso3 : ∀ n j, isEq n j = ingredient_in_equipments n j s2.equipments :=
      fun n j => (hiso n j).trans (hmem2 n j).symm
    refine ((ihrest isEq hiso3).trans ?_ : _)
    have hoccs : ingOccs (.cons (.node name quantity img job subs) rest) =
        ingOccs subs ++ ⟨name, quantity, img, some job⟩ :: ingOccs rest := rfl
    rw [hoccs]
    simp only [List.foldl_append, List.foldl_cons]
    have hse : (ingOccs subs).foldl stepEquipments s.equipments = s1.equipments := by
      rw [hs1]
    have hbase1 : s2.ingredients =
        stepIngredients ((ingOccs subs).foldl stepIngredients s.ingredients)
          ⟨name, quantity, img, some job⟩ := by
      rw [hs2i, hs1]
      rfl
    have hbase2 : recipes_upsert name quantity img job iseq s2.recipes =
        stepRecipes isEq ((ingOccs subs).foldl (stepRecipes isEq) s.recipes)
          ⟨name, quantity, img, some job⟩ := by
      rw [hiseq, hs2r, hs1]
      rfl
    have hbase3 : s2.equipments =
        stepEquipments ((ingOccs subs).foldl stepEquipments s.equipments)
          ⟨name, quantity, img, some job⟩ := by
      rw [hs2e, hse]
      rfl
    simp only [hbase1, hbase2, hbase3]

theorem occQuantitySum_cons (p : Occurrence → Bool) (o : Occurrence)
    (occs : List Occurrence) :
    occQuantitySum p (o :: occs) =
      if p o then o.quantity + occQuantitySum p occs else occQuantitySum p occs := by
  by_cases h : p o <;> simp [occQuantitySum, List.filter_cons, h]

/-- Folding the per-occurrence ingredients step accumulates, for each name,
the sum of the quantities of its `hasRecipe = False` occurrences; a fresh
entry takes price `-1` and the image of the first such occurrence. -/
theorem foldl_stepIngredients_dlookup (occs : List Occurrence)
    (d : List (String × IngredientEntry)) (n : String) :
    dlookup (occs.foldl stepIngredients d) n =
      match dlookup d n with
      | some e => some { e with quantity := e.quantity + occQuantitySum (isLeafOcc n) occs }
      | none =>
        match occs.find? (isLeafOcc n) with
        | none => none
        | some o => some ⟨-1, occQuantitySum (isLeafOcc n) occs, o.img⟩ := by
  induction occs generalizing d with
  | nil => cases h : dlookup d n <;> simp [occQuantitySum, h]
  | cons o occs ih =>
    rw [List.foldl_cons]
    cases hrj : o.rjob with
    | some j =>
      have hstep : stepIngredients d o = d := by simp [stepIngredients, hrj]
      have hleaf : isLeafOcc n o = false := by simp [isLeafOcc, hrj]
      rw [hstep, ih, occQuantitySum_cons]
      simp [hleaf]
    | none =>
      have hstep : stepIngredients d o =
          handle_ingredient_without_recipe o.name o.quantity o.img d := by
        simp [stepIngredients, hrj]
      rw [hstep, ih, occQuantitySum_cons]
      by_cases hname : o.name = n
      · have hleaf : isLeafOcc n o = true := by simp [isLeafOcc, hrj, hname]
        cases hd : dlookup d n with
        | some e =>
          have hd2 : dlookup (handle_ingredient_without_recipe o.name o.quantity o.img d) n
              = some { e with quantity := e.quantity + o.quantity } := by
            unfold handle_ingredient_without_recipe
            rw [hname, hd, dlookup_dmodify]
            simp [hd]
          rw [hd2]
          simp [hd, hleaf, add_assoc]
        | none =>
          have hd2 : dlookup (handle_ingredient_without_recipe o.name o.quantity o.img d) n
              = some ⟨-1, o.quantity, o.img⟩ := by
            unfold handle_ingredient_without_recipe
            rw [hname, hd, dlookup_dinsert]
            simp [hd]
          rw [hd2]
          simp [hd, hleaf]
      · have hno : ¬ (n = o.name) := fun hh => hname hh.symm
        have hleaf : isLeafOcc n o = false := by simp [isLeafOcc, hrj, hname]
        have hd2 : dlookup (handle_ingredient_without_recipe o.name o.quantity o.img d) n
            = dlookup d n := by
          unfold handle_ingredient_without_recipe
          cases hdo : dlookup d o.name with
          | none =>
            rw [dlookup_dinsert]
            cases hdn : dlookup d n <;> simp [hdn, hno]
          | some x =>
            rw [dlookup_dmodify]
            simp [hno]
        rw [hd2]
        simp [hleaf]

/-- Folding the per-occurrence recipes step accumulates, for each name, the
sum of the quantities of its `hasRecipe = True` occurrences; a fresh entry
takes price `-1`, the job and image of the first such occurrence, the
`is_equipment` classification of that first occurrence, and one extra unit
exactly when that classification holds. -/
theorem foldl_stepRecipes_dlookup (isEq : String → String → Bool)
    (occs : List Occurrence) (d : List (String × RecipeEntry)) (n : String) :
    dlookup (occs.foldl (stepRecipes isEq) d) n =
      match dlookup d n with
      | some e => some { e with quantity := e.quantity + occQuantitySum (isNodeOcc n) occs }
      | none =>
        match occs.find? (isNodeOcc n) with
        | none => none
        | some o =>
          some ⟨-1, o.rjob.getD "",
            occQuantitySum (isNodeOcc n) occs +
              (if isEq n (o.rjob.getD "") then 1 else 0),
            isEq n (o.rjob.getD ""), o.img⟩ := by
  induction occs generalizing d with
  | nil => cases h : dlookup d n <;> simp [occQuantitySum, h]
  | cons o occs ih =>
    rw [List.foldl_cons]
    cases hrj : o.rjob with
    | none =>
      have hstep : stepRecipes isEq d o = d := by simp [stepRecipes, hrj]
      have hnode : isNodeOcc n o = false := by simp [isNodeOcc, hrj]
      rw [hstep, ih, occQuantitySum_cons]
      simp [hnode]
    | some j =>
      have hstep : stepRecipes isEq d o =
          recipes_upsert o.name o.quantity o.img j (isEq o.name j) d := by
        simp [stepRecipes, hrj]
      rw [hstep, ih, occQuantitySum_cons]
      by_cases hname : o.name = n
      · have hnode : isNodeOcc n o = true := by simp [isNodeOcc, hrj, hname]
        cases hd : dlookup d n with
        | some e =>
          have hd2 : dlookup (recipes_upsert o.name o.quantity o.img j (isEq o.name j) d) n
              = some { e with quantity := e.quantity + o.quantity } := by
            unfold recipes_upsert
            rw [hname, hd, dlookup_dmodify]
            simp [hd]
          rw [hd2]
          simp [hd, hnode, add_assoc]
        | none =>
          have hd2 : dlookup (recipes_upsert o.name o.quantity o.img j (isEq o.name j) d) n
              = some ⟨-1, j, if isEq n j then o.quantity + 1 else o.quantity,
                  isEq n j, o.img⟩ := by
            unfold recipes_upsert
            rw [hname, hd, dlookup_dinsert]
            simp [hd]
          rw [hd2]
          have hgetD : (some j).getD "" = j := rfl
          by_cases hiseq : isEq n j <;>
            simp [hd, hnode, hrj, hgetD, hiseq] <;> ring
      · have hno : ¬ (n = o.name) := fun hh => hname hh.symm
        have hnode : isNodeOcc n o = false := by simp [isNodeOcc, hrj, hname]
        have hd2 : dlookup (recipes_upsert o.name o.quantity o.img j (isEq o.name j) d) n
            = dlookup d n := by
          unfold recipes_upsert
          cases hdo : dlookup d o.name with
          | none =>
            rw [dlookup_dinsert]
            cases hdn : dlookup d n <;> simp [hdn, hno]
          | some x =>
            rw [dlookup_dmodify]
            simp [hno]
        rw [hd2]
        simp [hnode]

theorem dlookup2_equipments_bump (m : String) (q : Int) (j2 : String)
    (eqs : List (String × List (String × EquipmentEntry))) (j n : String) :
    dlookup2 (equipments_bump m q j2 eqs) j n =
      if j = j2 ∧ n = m then
        (dlookup2 eqs j n).map (fun e => { e with quantity := e.quantity + q })
      else dlookup2 eqs j n := by
  unfold dlookup2 equipments_bump
  rw [dlookup_dmodify]
  by_cases hj : j = j2
  · subst hj
    cases hx : dlookup eqs j with
    | none => simp [hx]
    | some items =>
      simp only [hx, ite_true, if_true, Option.map]
      rw [dlookup_dmodify]
      by_cases hn : n = m <;> simp [hn] <;> cases dlookup items m <;> simp
  · simp [hj]

/-- Folding the per-occurrence equipments step leaves the key structure
unchanged and adds, to each present `(job, name)` entry, the sum of the
quantities of the `hasRecipe = True` occurrences of that name whose recipe
declares that job. -/
theorem foldl_stepEquipments_dlookup2 (occs : List Occurrence)
    (eqs : List (String × List (String × EquipmentEntry))) (j n : String) :
    dlookup2 (occs.foldl stepEquipments eqs) j n =
      (dlookup2 eqs j n).map
        (fun e => { e with quantity := e.quantity + occQuantitySum (isJobOcc j n) occs }) := by
  induction occs generalizing eqs with
  | nil =>
    cases h : dlookup2 eqs j n <;> simp [occQuantitySum, h]
  | cons o occs ih =>
    rw [List.foldl_cons, ih, occQuantitySum_cons]
    cases hrj : o.rjob with
    | none =>
      have hstep : stepEquipments eqs o = eqs := by simp [stepEquipments, hrj]
      have hocc : isJobOcc j n o = false := by simp [isJobOcc, hrj]
      rw [hstep]
      simp [hocc]
    | some job =>
      have hstep : stepEquipments eqs o =
          (if ingredient_in_equipments o.name job eqs then
            equipments_bump o.name o.quantity job eqs else eqs) := by
        simp [stepEquipments, hrj]
      rw [hstep]
      by_cases hmatch : j = job ∧ n = o.name
      · obtain ⟨hjj, hnn⟩ := hmatch
        have hocc : isJobOcc j n o = true := by simp [isJobOcc, hrj, hjj, hnn]
        by_cases hin : ingredient_in_equipments o.name job eqs
        · rw [if_pos hin, dlookup2_equipments_bump]
          rw [if_pos ⟨hjj, hnn⟩]
          cases hx : dlookup2 eqs j n <;> simp [hocc, hx, add_assoc]
        · rw [if_neg hin]
          have hnone : dlookup2 eqs j n = none := by
            unfold ingredient_in_equipments at hin
            unfold dlookup2
            rw [hjj, hnn]
            cases hx : dlookup eqs job with
            | none => rfl
            | some items =>
              rw [hx] at hin
              simp only [Bool.not_eq_true] at hin
              exact Option.not_isSome_iff_eq_none.mp (fun hh => by
                rw [hin] at hh
                exact Bool.false_ne_true hh)
          simp [hnone]
      · have hocc : isJobOcc j n o = false := by
          unfold isJobOcc
          rw [hrj]
          by_cases h1 : job = j
          · have h2 : ¬ (o.name = n) := fun hh => hmatch ⟨h1.symm, hh.symm⟩
            simp [h2]
          · have h3 : ¬ (some job = some j) := fun hh => h1 (Option.some.inj hh)
            simp [h3]
        by_cases hin : ingredient_in_equipments o.name job eqs
        · rw [if_pos hin, dlookup2_equipments_bump]
          rw [if_neg (fun hh => hmatch hh)]
          simp [hocc]
        · rw [if_neg hin]
          simp [hocc]

theorem ingredient_in_equipments_foldl (occs : List Occurrence)
    (eqs : List (String × List (String × EquipmentEntry))) (n j : String) :
    ingredient_in_equipments n j (occs.foldl stepEquipments eqs) =
      ingredient_in_equipments n j eqs := by
  induction occs generalizing eqs with
  | nil => rfl
  | cons o occs ih =>
    rw [List.foldl_cons, ih, ingredient_in_equipments_stepEquipments]

/-- The per-job inner loop of `generate_empty_list_of_prices` decomposes
into the per-occurrence folds over the items' concatenated occurrences. -/
theorem items_fold_components (items : List AggItem) (s : AggState)
    (isEq : String → String → Bool)
    (hiso : ∀ n j, isEq n j = ingredient_in_equipments n j s.equipments) :
    items.foldl (fun s it => process_recipe_ingredients it.recipeIngredients s) s =
      ⟨(items.flatMap (fun it => ingOccs it.recipeIngredients)).foldl
          stepIngredients s.ingredients,
       (items.flatMap (fun it => ingOccs it.recipeIngredients)).foldl
          (stepRecipes isEq) s.recipes,
       (items.flatMap (fun it => ingOccs it.recipeIngredients)).foldl
          stepEquipments s.equipments⟩ := by
  induction items generalizing s with
  | nil => simp
  | cons it items ih =>
    rw [List.foldl_cons, List.flatMap_cons]
    have hproc := process_components it.recipeIngredients s isEq hiso
    have hiso2 : ∀ n j, isEq n j = ingredient_in_equipments n j
        (process_recipe_ingredients it.recipeIngredients s).equipments := by
      intro n j
      rw [ingredient_in_equipments_process]
      exact hiso n j
    rw [ih (process_recipe_ingredients it.recipeIngredients s) hiso2, hproc]
    simp [List.foldl_append]

/-- The whole of `generate_empty_list_of_prices` decomposes into the
per-occurrence folds over the forest occurrences, starting from empty
ingredients and recipes ledgers and from the seeded equipments ledger. -/
theorem generate_components (result : List AggJob) :
    generate_empty_list_of_prices result =
      ⟨(forest_occurrences result).foldl stepIngredients [],
       (forest_occurrences result).foldl
         (stepRecipes (fun n j => ingredient_in_equipments n j (seed_equipments result))) [],
       (forest_occurrences result).foldl stepEquipments (seed_equipments result)⟩ := by
  unfold generate_empty_list_of_prices forest_occurrences
  generalize hseed : seed_equipments result = seed
  have main : ∀ (jobs : List AggJob) (s : AggState)
      (hiso : ∀ n j, ingredient_in_equipments n j seed
        = ingredient_in_equipments n j s.equipments),
      jobs.foldl (fun s job => job.items.foldl
          (fun s it => process_recipe_ingredients it.recipeIngredients s) s) s =
        ⟨(jobs.flatMap (fun job => job.items.flatMap
            (fun it => ingOccs it.recipeIngredients))).foldl stepIngredients s.ingredients,
         (jobs.flatMap (fun job => job.items.flatMap
            (fun it => ingOccs it.recipeIngredients))).foldl
           (stepRecipes (fun n j => ingredient_in_equipments n j seed)) s.recipes,
         (jobs.flatMap (fun job => job.items.flatMap
            (fun it => ingOccs it.recipeIngredients))).foldl stepEquipments s.equipments⟩ := by
    intro jobs
    induction jobs with
    | nil => intro s hiso; simp
    | cons job jobs ih =>
      intro s hiso
      rw [List.foldl_cons, List.flatMap_cons]
      have hitems := items_fold_components job.items s
        (fun n j => ingredient_in_equipments n j seed) (fun n j => hiso n j)
      have hiso2 : ∀ n j, ingredient_in_equipments n j seed
          = ingredient_in_equipments n j (job.items.foldl
            (fun s it => process_recipe_ingredients it.recipeIngredients s) s).equipments := by
        intro n j
        rw [hitems]
        show ingredient_in_equipments n j seed = ingredient_in_equipments n j
          ((job.items.flatMap (fun it => ingOccs it.recipeIngredients)).foldl
            stepEquipments s.equipments)
        rw [ingredient_in_equipments_foldl]
        exact hiso n j
      rw [ih (job.items.foldl
          (fun s it => process_recipe_ingredients it.recipeIngredients s) s) hiso2, hitems]
      simp [List.foldl_append]
  exact main result ⟨[], [], seed⟩ (fun n j => rfl)

theorem generate_ingredients_dlookup (result : List AggJob) (n : String) :
    dlookup (generate_empty_list_of_prices result).ingredients n =
      match (forest_occurrences result).find? (isLeafOcc n) with
      | none => none
      | some o =>
        some ⟨-1, occQuantitySum (isLeafOcc n) (forest_occurrences result), o.img⟩ := by
  rw [generate_components]
  show dlookup ((forest_occurrences result).foldl stepIngredients []) n = _
  rw [foldl_stepIngredients_dlookup]
  rfl

theorem generate_recipes_dlookup (result : List AggJob) (n : String) :
    dlookup (generate_empty_list_of_prices result).recipes n =
      match (forest_occurrences result).find? (isNodeOcc n) with
      | none => none
      | some o =>
        some ⟨-1, o.rjob.getD "",
          occQuantitySum (isNodeOcc n) (forest_occurrences result) +
            (if ingredient_in_equipments n (o.rjob.getD "") (seed_equipments result)
             then 1 else 0),
          ingredient_in_equipments n (o.rjob.getD "") (seed_equipments result),
          o.img⟩ := by
  rw [generate_components]
  show dlookup ((forest_occurrences result).foldl
    (stepRecipes (fun n j => ingredient_in_equipments n j (seed_equipments result))) []) n = _
  rw [foldl_stepRecipes_dlookup]
  rfl

theorem generate_equipments_dlookup2 (result : List AggJob) (j n : String) :
    dlookup2 (generate_empty_list_of_prices result).equipments j n =
      (dlookup2 (seed_equipments result) j n).map
        (fun e => { e with quantity :=
          e.quantity + occQuantitySum (isJobOcc j n) (forest_occurrences result) }) := by
  rw [generate_components]
  show dlookup2 ((forest_occurrences result).foldl stepEquipments
    (seed_equipments result)) j n = _
  rw [foldl_stepEquipments_dlookup2]

/-- Every entry seeded by `generate_empty_list_of_prices` into the
equipments ledger is `{"price": -1, "breakage_rate": -1, "quantity": 1}`. -/
theorem seed_equipments_entry (result : List AggJob) (j n : String)
    (e : EquipmentEntry) (h : dlookup2 (seed_equipments result) j n = some e) :
    e.price = -1 ∧ e.breakage_rate = -1 ∧ e.quantity = 1 := by
  have inner : ∀ (items : List AggItem) (acc : List (String × EquipmentEntry)),
      (∀ (n2 : String) (e2 : EquipmentEntry), dlookup acc n2 = some e2 →
        e2.price = -1 ∧ e2.breakage_rate = -1 ∧ e2.quantity = 1) →
      ∀ (n2 : String) (e2 : EquipmentEntry),
        dlookup (items.foldl (fun its it => dset its it.name ⟨-1, -1, 1, it.img⟩) acc) n2
          = some e2 →
        e2.price = -1 ∧ e2.breakage_rate = -1 ∧ e2.quantity = 1 := by
    intro items
    induction items with
    | nil => intro acc hacc n2 e2 h2; exact hacc n2 e2 h2
    | cons it items ih =>
      intro acc hacc n2 e2 h2
      rw [List.foldl_cons] at h2
      refine ih (dset acc it.name ⟨-1, -1, 1, it.img⟩) ?_ n2 e2 h2
      intro n3 e3 h3
      rw [dlookup_dset] at h3
      by_cases hn : n3 = it.name
      · rw [if_pos hn] at h3
        obtain rfl : (⟨-1, -1, 1, it.img⟩ : EquipmentEntry) = e3 := Option.some.inj h3
        exact ⟨rfl, rfl, rfl⟩
      · rw [if_neg hn] at h3
        exact hacc n3 e3 h3
  have outer : ∀ (jobs : List AggJob)
      (acc : List (String × List (String × EquipmentEntry))),
      (∀ (j2 n2 : String) (e2 : EquipmentEntry), dlookup2 acc j2 n2 = some e2 →
        e2.price = -1 ∧ e2.breakage_rate = -1 ∧ e2.quantity = 1) →
      ∀ (j2 n2 : String) (e2 : EquipmentEntry),
        dlookup2 (jobs.foldl (fun eqs job => dset eqs job.name
          (job.items.foldl (fun its it => dset its it.name ⟨-1, -1, 1, it.img⟩) [])) acc)
          j2 n2 = some e2 →
        e2.price = -1 ∧ e2.breakage_rate = -1 ∧ e2.quantity = 1 := by
    intro jobs
    induction jobs with
    | nil => intro acc hacc j2 n2 e2 h2; exact hacc j2 n2 e2 h2
    | cons job jobs ih =>
      intro acc hacc j2 n2 e2 h2
      rw [List.foldl_cons] at h2
      refine ih _ ?_ j2 n2 e2 h2
      intro j3 n3 e3 h3
      unfold dlookup2 at h3
      rw [dlookup_dset] at h3
      by_cases hj : j3 = job.name
      · rw [if_pos hj] at h3
        exact inner job.items [] (fun n4 e4 h4 => by cases h4) n3 e3 h3
      · rw [if_neg hj] at h3
        exact hacc j3 n3 e3 h3
  exact outer result [] (fun j2 n2 e2 h2 => by cases h2) j n e h

/-- C1.  Quantity conservation of the aggregation engine.  For every forest
and every name: the ingredients-ledger quantity of the name is the sum of
the quantities of its `hasRecipe = False` occurrences anywhere in the
traversed trees (the entry exists exactly when such an occurrence exists);
the recipes-ledger quantity is the sum of the quantities of its
`hasRecipe = True` occurrences, plus exactly one extra unit when the first
such sighting is classified `is_equipment` (its name is seeded in the
equipments ledger under the job declared by that occurrence's recipe), and
no extra unit for repeat sightings; and each seeded equipment entry's
quantity is its seed value 1 plus the sum of the quantities of the
`hasRecipe = True` occurrences of its name carrying its job. -/
theorem quantity_conservation (result : List AggJob) (n : String) :
    ((dlookup (generate_empty_list_of_prices result).ingredients n).map
        (fun e => e.quantity) =
      ((forest_occurrences result).find? (isLeafOcc n)).map
        (fun _ => occQuantitySum (isLeafOcc n) (forest_occurrences result)))
    ∧ ((dlookup (generate_empty_list_of_prices result).recipes n).map
        (fun e => e.quantity) =
      ((forest_occurrences result).find? (isNodeOcc n)).map
        (fun o => occQuantitySum (isNodeOcc n) (forest_occurrences result) +
          (if ingredient_in_equipments n (o.rjob.getD "") (seed_equipments result)
           then 1 else 0)))
    ∧ (∀ j : String, (dlookup2 (generate_empty_list_of_prices result).equipments j n).map
        (fun e => e.quantity) =
      (dlookup2 (seed_equipments result) j n).map
        (fun _ => 1 + occQuantitySum (isJobOcc j n) (forest_occurrences result))) := by
  refine ⟨?_, ?_, ?_⟩
  · rw [generate_ingredients_dlookup]
    cases (forest_occurrences result).find? (isLeafOcc n) <;> rfl
  · rw [generate_recipes_dlookup]
    cases (forest_occurrences result).find? (isNodeOcc n) <;> rfl
  · intro j
    rw [generate_equipments_dlookup2]
    cases hx : dlookup2 (seed_equipments result) j n with
    | none => rfl
    | some e =>
      have hq : e.quantity = 1 := (seed_equipments_entry result j n e hx).2.2
      simp [hq]

/-- Counterexample to claim C2: on the concrete Sword and Hilt forest the
aggregation does not yield an "Iron Ingot" quantity of 5 together with the
two Hilt quantities of 2 — the top-level "Hilt" item's own recipe is
traversed as well, so "Iron Ingot" totals 2 + 3 + 3 = 8, not 5. -/
theorem sword_hilt_as_claimed_false :
    ¬ (((dlookup (generate_empty_list_of_prices swordHiltForest).ingredients
          "Iron Ingot").map (fun e => e.quantity) = some 5)
      ∧ ((dlookup (generate_empty_list_of_prices swordHiltForest).recipes
          "Hilt").map (fun e => e.quantity) = some 2)
      ∧ ((dlookup2 (generate_empty_list_of_prices swordHiltForest).equipments
          "Smith" "Hilt").map (fun e => e.quantity) = some 2)) := by
  decide

/-- C2 (amended).  On the concrete Sword and Hilt forest — "Sword" (job
"Smith") requires 2 "Iron Ingot" and 1 "Hilt" whose sub-recipe (job
"Smith") requires 3 "Iron Ingot", and "Hilt" is also a top-level equipment
item with that same recipe — aggregation yields
`IngredientLedger["Iron Ingot"].quantity == 8` (2 from Sword, 3 from the
Hilt sub-recipe inside Sword, 3 from the top-level Hilt item's recipe),
`RecipeLedger["Hilt"].quantity == 2` (1 demanded + 1 extra since "Hilt"
is classified `is_equipment` at first sighting), and
`EquipmentLedger["Smith"]["Hilt"].quantity == 2` (1 seeded + 1 demanded). -/
theorem sword_hilt_totals :
    ((dlookup (generate_empty_list_of_prices swordHiltForest).ingredients
        "Iron Ingot").map (fun e => e.quantity) = some 8)
    ∧ ((dlookup (generate_empty_list_of_prices swordHiltForest).recipes
        "Hilt").map (fun e => e.quantity) = some 2)
    ∧ ((dlookup2 (generate_empty_list_of_prices swordHiltForest).equipments
        "Smith" "Hilt").map (fun e => e.quantity) = some 2) := by
  decide

/-- C8.  Sentinel invariant: every entry of the three ledgers built by
`generate_empty_list_of_prices` has `price = -1` (equipment entries also
`breakage_rate = -1`); equipment entries are seeded with quantity 1 before
any ingredient is processed; and no processing step changes a `price` or
`breakage_rate` field — across any `process_recipe_ingredients` call, the
`price` of an ingredients- or recipes-ledger entry is its prior value, or
`-1` for an entry the call creates, and the `price`/`breakage_rate` pair of
every equipments-ledger entry is exactly its prior value. -/
theorem sentinel_invariant (result : List AggJob) :
    ((∀ (n : String) (e : IngredientEntry),
        dlookup (generate_empty_list_of_prices result).ingredients n = some e →
        e.price = -1)
    ∧ (∀ (n : String) (e : RecipeEntry),
        dlookup (generate_empty_list_of_prices result).recipes n = some e →
        e.price = -1)
    ∧ (∀ (j n : String) (e : EquipmentEntry),
        dlookup2 (generate_empty_list_of_prices result).equipments j n = some e →
        e.price = -1 ∧ e.breakage_rate = -1)
    ∧ (∀ (j n : String) (e : EquipmentEntry),
        dlookup2 (seed_equipments result) j n = some e →
        e.price = -1 ∧ e.breakage_rate = -1 ∧ e.quantity = 1))
    ∧ (∀ (l : IngredientList) (s : AggState) (n : String),
        ((dlookup (process_recipe_ingredients l s).ingredients n).map
            (fun e => e.price) =
          match dlookup s.ingredients n with
          | some e => some e.price
          | none => ((ingOccs l).find? (isLeafOcc n)).map (fun _ => (-1 : Int)))
        ∧ ((dlookup (process_recipe_ingredients l s).recipes n).map
            (fun e => e.price) =
          match dlookup s.recipes n with
          | some e => some e.price
          | none => ((ingOccs l).find? (isNodeOcc n)).map (fun _ => (-1 : Int)))
        ∧ (∀ j : String,
            (dlookup2 (process_recipe_ingredients l s).equipments j n).map
              (fun e => (e.price, e.breakage_rate)) =
            (dlookup2 s.equipments j n).map (fun e => (e.price, e.breakage_rate)))) := by
  constructor
  · refine ⟨?_, ?_, ?_, ?_⟩
    · intro n e h
      rw [generate_ingredients_dlookup] at h
      cases hf : (forest_occurrences result).find? (isLeafOcc n) with
      | none => rw [hf] at h; cases h
      | some o =>
        rw [hf] at h
        obtain rfl := (Option.some.inj h).symm
        rfl
    · intro n e h
      rw [generate_recipes_dlookup] at h
      cases hf : (forest_occurrences result).find? (isNodeOcc n) with
      | none => rw [hf] at h; cases h
      | some o =>
        rw [hf] at h
        obtain rfl := (Option.some.inj h).symm
        rfl
    · intro j n e h
      rw [generate_equipments_dlookup2] at h
      cases hx : dlookup2 (seed_equipments result) j n with
      | none => rw [hx] at h; cases h
      | some e0 =>
        rw [hx] at h
        obtain rfl := (Option.some.inj h).symm
        obtain ⟨hp, hb, _⟩ := seed_equipments_entry result j n e0 hx
        exact ⟨hp, hb⟩
    · exact fun j n e h => seed_equipments_entry result j n e h
  · intro l s n
    have hcomp := process_components l s
      (fun n j => ingredient_in_equipments n j s.equipments) (fun n j => rfl)
    refine ⟨?_, ?_, ?_⟩
    · rw [hcomp]
      show (dlookup ((ingOccs l).foldl stepIngredients s.ingredients) n).map
        (fun e => e.price) = _
      rw [foldl_stepIngredients_dlookup]
      cases hd : dlookup s.ingredients n with
      | some e => rfl
      | none => cases hf : (ingOccs l).find? (isLeafOcc n) <;> rfl
    · rw [hcomp]
      show (dlookup ((ingOccs l).foldl
        (stepRecipes (fun n j => ingredient_in_equipments n j s.equipments))
          s.recipes) n).map (fun e => e.price) = _
      rw [foldl_stepRecipes_dlookup]
      cases hd : dlookup s.recipes n with
      | some e => rfl
      | none => cases hf : (ingOccs l).find? (isNodeOcc n) <;> rfl
    · intro j
      rw [hcomp]
      show (dlookup2 ((ingOccs l).foldl stepEquipments s.equipments) j n).map
        (fun e => (e.price, e.breakage_rate)) = _
      rw [foldl_stepEquipments_dlookup2]
      cases hx : dlookup2 s.equipments j n <;> rfl

/-- Witness for C8 at a concrete input: the "Iron Ingot" entry of the
ingredients ledger built from `swordHiltForest` exists, and the theorem
yields its sentinel price `-1`. -/
theorem sentinel_invariant_witness :
    dlookup (generate_empty_list_of_prices swordHiltForest).ingredients "Iron Ingot"
      = some ⟨-1, 8, "iron.png"⟩
    ∧ (⟨-1, 8, "iron.png"⟩ : IngredientEntry).price = -1 :=
  ⟨by decide,
   (sentinel_invariant swordHiltForest).1.1 "Iron Ingot" ⟨-1, 8, "iron.png"⟩ (by decide)⟩

/-- C4.  Idempotence of the aggregation: running
`generate_empty_list_of_prices` a second time on the same forest — on the
ledger files the first run left behind — returns the same three ledgers,
and more generally the returned ledgers do not depend on the incoming file
state at all (the `if True:` branch always recomputes from scratch). -/
theorem aggregation_idempotent (files1 files2 : LedgerFiles) (result : List AggJob) :
    ((generate_empty_list_of_prices_with_files
        (generate_empty_list_of_prices_with_files files1 result).2 result).1 =
      (generate_empty_list_of_prices_with_files files1 result).1)
    ∧ ((generate_empty_list_of_prices_with_files files1 result).1 =
      (generate_empty_list_of_prices_with_files files2 result).1) :=
  ⟨rfl, rfl⟩

/-- C10.  Frame property of the repeat-sighting upserts: when the name is
already present in the recipes ledger (respectively the ingredients
ledger), the upsert changes only that entry's `quantity`; its `price`,
`job`, `is_equipment` and `img` (respectively `price` and `img`) stay
exactly as recorded at first sighting — in particular the `job` and `img`
of the later occurrence are ignored — and every other entry of the
dictionary is unchanged. -/
theorem upsert_repeat_sighting_frame
    (name : String) (quantity : Int) (img : String) (job : String)
    (is_equipment : Bool)
    (recipes : List (String × RecipeEntry))
    (ingredients : List (String × IngredientEntry))
    (er : RecipeEntry) (ei : IngredientEntry)
    (hr : dlookup recipes name = some er)
    (hi : dlookup ingredients name = some ei) :
    (dlookup (recipes_upsert name quantity img job is_equipment recipes) name
        = some { er with quantity := er.quantity + quantity })
    ∧ (∀ m : String, ¬ (m = name) →
        dlookup (recipes_upsert name quantity img job is_equipment recipes) m
          = dlookup recipes m)
    ∧ (dlookup (handle_ingredient_without_recipe name quantity img ingredients) name
        = some { ei with quantity := ei.quantity + quantity })
    ∧ (∀ m : String, ¬ (m = name) →
        dlookup (handle_ingredient_without_recipe name quantity img ingredients) m
          = dlookup ingredients m) := by
  refine ⟨?_, ?_, ?_, ?_⟩
  · unfold recipes_upsert
    rw [hr, dlookup_dmodify, if_pos rfl, hr]
    rfl
  · intro m hm
    unfold recipes_upsert
    rw [hr, dlookup_dmodify, if_neg hm]
  · unfold handle_ingredient_without_recipe
    rw [hi, dlookup_dmodify, if_pos rfl, hi]
    rfl
  · intro m hm
    unfold handle_ingredient_without_recipe
    rw [hi, dlookup_dmodify, if_neg hm]

/-- Witness for C10 at a concrete input: a repeat sighting of "X" carrying
job "J2" and image "b.png" leaves the first-sighting job "J1", image
"a.png", price and `is_equipment` of the existing entries untouched and
only adds its quantity 2. -/
theorem upsert_repeat_sighting_frame_witness :
    dlookup [("X", (⟨-1, "J1", 3, true, "a.png"⟩ : RecipeEntry))] "X"
      = some ⟨-1, "J1", 3, true, "a.png"⟩
    ∧ dlookup [("X", (⟨-1, 4, "a.png"⟩ : IngredientEntry))] "X"
      = some ⟨-1, 4, "a.png"⟩
    ∧ dlookup (recipes_upsert "X" 2 "b.png" "J2" false
        [("X", ⟨-1, "J1", 3, true, "a.png"⟩)]) "X"
      = some ⟨-1, "J1", 3 + 2, true, "a.png"⟩ :=
  ⟨by decide, by decide,
   (upsert_repeat_sighting_frame "X" 2 "b.png" "J2" false
      [("X", ⟨-1, "J1", 3, true, "a.png"⟩)] [("X", ⟨-1, 4, "a.png"⟩)]
      ⟨-1, "J1", 3, true, "a.png"⟩ ⟨-1, 4, "a.png"⟩ (by decide) (by decide)).1⟩

theorem isLeafOcc_spec (n : String) (o : Occurrence) (h : isLeafOcc n o = true) :
    o.rjob = none ∧ o.name = n := by
  simpa [isLeafOcc, Option.isNone_iff_eq_none] using h

theorem isNodeOcc_spec (n : String) (o : Occurrence) (h : isNodeOcc n o = true) :
    o.rjob.isSome = true ∧ o.name = n := by
  simpa [isNodeOcc] using h

theorem occQuantitySum_perm (p : Occurrence → Bool) (occs1 occs2 : List Occurrence)
    (h : occs1.Perm occs2) : occQuantitySum p occs1 = occQuantitySum p occs2 :=
  List.Perm.sum_eq ((h.filter p).map (fun o => o.quantity))

/-- Counterexample to claim C3: permuting the two ingredients of the single
recipe of `permForestA` (same name "X", different images) changes the
recorded image of the "X" ingredients-ledger entry, so the permuted forest
does not produce the same field values in every entry. -/
theorem ingredient_order_dependence :
    dlookup (generate_empty_list_of_prices permForestB).ingredients "X"
      ≠ dlookup (generate_empty_list_of_prices permForestA).ingredients "X" := by
  decide

/-- C3 (amended).  Order independence of the aggregation under consistent
data: for two forests with the same seeded equipments ledger whose
occurrence lists are permutations of one another (as produced by permuting
the ingredient list of any recipe), and in which any two occurrences of the
same name agree on their image and — for `hasRecipe` occurrences — on their
recipe's job, the three ledgers have the same keys and the same field
values in every entry. -/
theorem aggregation_order_independence (f1 f2 : List AggJob)
    (hseed : seed_equipments f1 = seed_equipments f2)
    (hperm : (forest_occurrences f1).Perm (forest_occurrences f2))
    (hleaf : ∀ o1 ∈ forest_occurrences f1, ∀ o2 ∈ forest_occurrences f1,
      o1.name = o2.name → o1.rjob = none → o2.rjob = none → o1.img = o2.img)
    (hnode : ∀ o1 ∈ forest_occurrences f1, ∀ o2 ∈ forest_occurrences f1,
      o1.name = o2.name → o1.rjob.isSome = true → o2.rjob.isSome = true →
      o1.rjob = o2.rjob ∧ o1.img = o2.img) :
    ∀ n : String,
      (dlookup (generate_empty_list_of_prices f1).ingredients n
        = dlookup (generate_empty_list_of_prices f2).ingredients n)
      ∧ (dlookup (generate_empty_list_of_prices f1).recipes n
        = dlookup (generate_empty_list_of_prices f2).recipes n)
      ∧ (∀ j : String,
          dlookup2 (generate_empty_list_of_prices f1).equipments j n
            = dlookup2 (generate_empty_list_of_prices f2).equipments j n) := by
  intro n
  have hq : ∀ p : Occurrence → Bool,
      occQuantitySum p (forest_occurrences f1)
        = occQuantitySum p (forest_occurrences f2) :=
    fun p => occQuantitySum_perm p _ _ hperm
  refine ⟨?_, ?_, ?_⟩
  · rw [generate_ingredients_dlookup, generate_ingredients_dlookup]
    cases h1 : (forest_occurrences f1).find? (isLeafOcc n) with
    | none =>
      cases h2 : (forest_occurrences f2).find? (isLeafOcc n) with
      | none => rfl
      | some o2 =>
        exfalso
        have hm2 : o2 ∈ forest_occurrences f1 :=
          hperm.mem_iff.mpr (List.mem_of_find?_eq_some h2)
        have hp2 := List.find?_some h2
        have := List.find?_eq_none.mp h1 o2 hm2
        exact this hp2
    | some o1 =>
      cases h2 : (forest_occurrences f2).find? (isLeafOcc n) with
      | none =>
        exfalso
        have hm1 : o1 ∈ forest_occurrences f2 :=
          hperm.mem_iff.mp (List.mem_of_find?_eq_some h1)
        have hp1 := List.find?_some h1
        have := List.find?_eq_none.mp h2 o1 hm1
        exact this hp1
      | some o2 =>
        have hm1 : o1 ∈ forest_occurrences f1 := List.mem_of_find?_eq_some h1
        have hm2 : o2 ∈ forest_occurrences f1 :=
          hperm.mem_iff.mpr (List.mem_of_find?_eq_some h2)
        obtain ⟨hr1, hn1⟩ := isLeafOcc_spec n o1 (List.find?_some h1)
        obtain ⟨hr2, hn2⟩ := isLeafOcc_spec n o2 (List.find?_some h2)
        have himg : o1.img = o2.img :=
          hleaf o1 hm1 o2 hm2 (hn1.trans hn2.symm) hr1 hr2
        rw [hq]
        simp [himg]
  · rw [generate_recipes_dlookup, generate_recipes_dlookup]
    cases h1 : (forest_occurrences f1).find? (isNodeOcc n) with
    | none =>
      cases h2 : (forest_occurrences f2).find? (isNodeOcc n) with
      | none => rfl
      | some o2 =>
        exfalso
        have hm2 : o2 ∈ forest_occurrences f1 :=
          hperm.mem_iff.mpr (List.mem_of_find?_eq_some h2)
        exact List.find?_eq_none.mp h1 o2 hm2 (List.find?_some h2)
    | some o1 =>
      cases h2 : (forest_occurrences f2).find? (isNodeOcc n) with
      | none =>
        exfalso
        have hm1 : o1 ∈ forest_occurrences f2 :=
          hperm.mem_iff.mp (List.mem_of_find?_eq_some h1)
        exact List.find?_eq_none.mp h2 o1 hm1 (List.find?_some h1)
      | some o2 =>
        have hm1 : o1 ∈ forest_occurrences f1 := List.mem_of_find?_eq_some h1
        have hm2 : o2 ∈ forest_occurrences f1 :=
          hperm.mem_iff.mpr (List.mem_of_find?_eq_some h2)
        obtain ⟨hr1, hn1⟩ := isNodeOcc_spec n o1 (List.find?_some h1)
        obtain ⟨hr2, hn2⟩ := isNodeOcc_spec n o2 (List.find?_some h2)
        obtain ⟨hjob, himg⟩ :=
          hnode o1 hm1 o2 hm2 (hn1.trans hn2.symm) hr1 hr2
        rw [hq]
        simp [himg, hjob, hseed]
  · intro j
    rw [generate_equipments_dlookup2, generate_equipments_dlookup2, hseed, hq]

/-- Witness for C3 at a concrete input: swapping the two (distinct,
consistently-described) ingredients of the single recipe of `permForestC`
is a permutation of its occurrences, and the theorem yields equal
ingredients-ledger entries for "X". -/
theorem aggregation_order_independence_witness :
    (forest_occurrences permForestC).Perm (forest_occurrences permForestD)
    ∧ dlookup (generate_empty_list_of_prices permForestC).ingredients "X"
      = dlookup (generate_empty_list_of_prices permForestD).ingredients "X" :=
  ⟨by decide,
   (aggregation_order_independence permForestC permForestD (by decide) (by decide)
      (by decide) (by decide) "X").1⟩

/-- Counterexample to claim C6: an allowlisted effect whose raw value pair
is `(0, 0)` is predicted kept (as `(0, 0)`) by the claim's description of
the normalizer, but `effects_management` drops it — the code also filters
out effects with `value_low == 0 and value_high == 0`, a clause the claim
does not state. -/
theorem effects_management_zero_pair_counterexample :
    effects_management (fun _ => "Puissance") ["Puissance"]
        [⟨1, 0, 0⟩]
      ≠ effects_management_claim (fun _ => "Puissance") ["Puissance"]
        [⟨1, 0, 0⟩] := by
  decide

/-- C6 (amended).  For every list of raw effect records the normalizer
outputs exactly those effects whose cleaned name is in the allowlist,
whose (post-override) low value is non-negative, and whose (post-override)
value pair is not `(0, 0)`; a single-value effect (`value_high == 0`) is
collapsed so both values agree, and "Arme de chasse" is overridden to
`(1, 1)` regardless of its raw values before the filtering. -/
theorem effects_management_characterisation (cleanName : Int → String)
    (effects_name : List String) (effects : List RawEffect) :
    effects_management cleanName effects_name effects =
      effects.filterMap (fun effect =>
        let effect_name := cleanName effect.effectId
        let vals : Int × Int :=
          if effect_name = "Arme de chasse" then (1, 1)
          else (effect.fromValue, effect.toValue)
        if 0 ≤ vals.1 ∧ ¬ (vals.1 = 0 ∧ vals.2 = 0) ∧ effect_name ∈ effects_name then
          some ⟨effect_name, vals.1, if vals.2 = 0 then vals.1 else vals.2⟩
        else none) := by
  induction effects with
  | nil => rfl
  | cons effect rest ih =>
    rw [List.filterMap_cons]
    show (if _ then _ else _) = _
    by_cases hdrop : (if cleanName effect.effectId = "Arme de chasse" then
          ((1 : Int), (1 : Int))
        else (effect.fromValue, effect.toValue)).1 < 0
      ∨ ((if cleanName effect.effectId = "Arme de chasse" then ((1 : Int), (1 : Int))
          else (effect.fromValue, effect.toValue)).1 = 0
        ∧ (if cleanName effect.effectId = "Arme de chasse" then ((1 : Int), (1 : Int))
          else (effect.fromValue, effect.toValue)).2 = 0)
      ∨ cleanName effect.effectId ∉ effects_name
    · rw [if_pos hdrop, ih]
      have hkeep : ¬ (0 ≤ (if cleanName effect.effectId = "Arme de chasse" then
            ((1 : Int), (1 : Int)) else (effect.fromValue, effect.toValue)).1
          ∧ ¬ ((if cleanName effect.effectId = "Arme de chasse" then ((1 : Int), (1 : Int))
              else (effect.fromValue, effect.toValue)).1 = 0
            ∧ (if cleanName effect.effectId = "Arme de chasse" then ((1 : Int), (1 : Int))
              else (effect.fromValue, effect.toValue)).2 = 0)
          ∧ cleanName effect.effectId ∈ effects_name) := by
        rcases hdrop with h | h | h
        · exact fun hc => absurd hc.1 (not_le.mpr h)
        · exact fun hc => hc.2.1 h
        · exact fun hc => h hc.2.2
      rw [if_neg hkeep]
    · rw [if_neg hdrop, ih]
      push_neg at hdrop
      obtain ⟨h1, h2, h3⟩ := hdrop
      have hkeep : 0 ≤ (if cleanName effect.effectId = "Arme de chasse" then
            ((1 : Int), (1 : Int)) else (effect.fromValue, effect.toValue)).1
          ∧ ¬ ((if cleanName effect.effectId = "Arme de chasse" then ((1 : Int), (1 : Int))
              else (effect.fromValue, effect.toValue)).1 = 0
            ∧ (if cleanName effect.effectId = "Arme de chasse" then ((1 : Int), (1 : Int))
              else (effect.fromValue, effect.toValue)).2 = 0)
          ∧ cleanName effect.effectId ∈ effects_name :=
        ⟨h1, fun hc => absurd hc.2 (h2 hc.1), h3⟩
      rw [if_pos hkeep]

/-- Witness for C6 at concrete inputs: a negative-low effect and a
non-allowlisted effect are dropped, an "Arme de chasse" effect with raw
pair `(-3, 7)` is forced to `(1, 1)`, and a single-value allowlisted
effect `(4, 0)` is collapsed to `(4, 4)` — as the characterisation
computes. -/
theorem effects_management_characterisation_witness :
    effects_management
        (fun i => if i = 5 then "Arme de chasse" else if i = 6 then "Vitesse" else "Force")
        ["Arme de chasse", "Force"]
        [⟨1, -2, 9⟩, ⟨5, -3, 7⟩, ⟨6, 1, 2⟩, ⟨2, 4, 0⟩]
      = [⟨"Arme de chasse", 1, 1⟩, ⟨"Force", 4, 4⟩] := by
  rw [effects_management_characterisation]
  decide

/-- C5.  An API item record is admitted to the craftable set (appended to
the job's item list by `items_management`) exactly when it has a recipe,
is destructible, is not flagged secret-recipe, and keeps at least one
recognized effect after cleanup; in particular an item whose cleaned
effect list is empty is excluded even when it has a recipe. -/
theorem item_admitted_iff {ρ : Type} (cleanName : Int → String)
    (effects_name : List String) (recipeFor : Int → ρ) :
    (∀ item : ApiItem,
      (item_management cleanName effects_name recipeFor item).isSome
        ↔ (item.hasRecipe = true ∧ item.isDestructible = true
           ∧ item.secretRecipe = false
           ∧ effects_management cleanName effects_name item.effects ≠ []))
    ∧ (∀ data : List ApiItem,
        items_management cleanName effects_name recipeFor data
          = data.filterMap (item_management cleanName effects_name recipeFor)) := by
  constructor
  · intro item
    unfold item_management
    by_cases hcond : item.hasRecipe ∧ item.isDestructible ∧ ¬ item.secretRecipe
    · rw [if_pos hcond]
      by_cases heff : (effects_management cleanName effects_name item.effects).length = 0
      · rw [if_pos heff]
        simp only [Option.isSome_none, Bool.false_eq_true, false_iff]
        intro hc
        exact hc.2.2.2 (List.length_eq_zero.mp heff)
      · rw [if_neg heff]
        simp only [Option.isSome_some, true_iff]
        refine ⟨hcond.1, hcond.2.1, by simpa using hcond.2.2, ?_⟩
        intro hnil
        exact heff (by rw [hnil]; rfl)
    · rw [if_neg hcond]
      simp only [Option.isSome_none, Bool.false_eq_true, false_iff]
      intro hc
      exact hcond ⟨hc.1, hc.2.1, by simp [hc.2.2.1]⟩
  · intro data
    induction data with
    | nil => rfl
    | cons item rest ih =>
      rw [List.filterMap_cons]
      show (match item_management cleanName effects_name recipeFor item with
        | none => items_management cleanName effects_name recipeFor rest
        | some d => d :: items_management cleanName effects_name recipeFor rest) = _
      cases item_management cleanName effects_name recipeFor item <;> simp [ih]

/-- The `hasRecipe` branch of `rm_ingredients` is the body of
`recipe_management env fuel ingredient_id`: the inlined sub-resolution
agrees with the named resolver. -/
theorem rm_ingredients_cons (env : Int → RecipeData) (fuel : Nat) (iid : Int)
    (ids qs : List Int) (recs : List IngredientRecord) :
    rm_ingredients env (fuel + 1) (iid :: ids) qs recs =
      match get_ingredient_with_id iid recs with
      | .error e => .error e
      | .ok r =>
        match (if r.hasRecipe then (recipe_management env fuel iid).map some
               else .ok none : Except ResolveError (Option (String × List ResIngredient))) with
        | .error e => .error e
        | .ok orecipe =>
          match rm_ingredients env fuel ids qs.tail recs with
          | .error e => .error e
          | .ok rest =>
            .ok (⟨r.name, qs.headD 0, r.hasRecipe, r.secretRecipe, orecipe⟩ :: rest) := by
  rw [rm_ingredients]
  cases hget : get_ingredient_with_id iid recs with
  | error e => rfl
  | ok r =>
    cases hrec : r.hasRecipe with
    | false => simp [hrec]
    | true =>
      simp only [hrec, if_true]
      unfold recipe_management
      cases rm_ingredients env fuel (env iid).ingredientIds
          (env iid).quantities (env iid).ingredients <;> rfl

/-- An `IngredientNotFound` outcome of the ingredient loop exhibits a
missing identifier somewhere in the transitively resolved recipes. -/
theorem rm_error_inf (env : Int → RecipeData) :
    ∀ (fuel : Nat) (ids qs : List Int) (recs : List IngredientRecord),
      rm_ingredients env fuel ids qs recs = .error .ingredientNotFound →
      LoopINF env ids recs := by
  intro fuel
  induction fuel with
  | zero =>
    intro ids qs recs h
    cases ids with
    | nil => cases h
    | cons iid ids => cases h
  | succ fuel ih =>
    intro ids qs recs h
    cases ids with
    | nil => cases h
    | cons iid ids =>
      rw [rm_ingredients] at h
      cases hget : get_ingredient_with_id iid recs with
      | error e =>
        rw [hget] at h
        simp only [] at h
        obtain rfl : e = ResolveError.ingredientNotFound := Except.error.inj h
        exact LoopINF.headMissing iid ids recs hget
      | ok r =>
        rw [hget] at h
        simp only [] at h
        cases hrec : r.hasRecipe with
        | true =>
          rw [hrec] at h
          simp only [if_true] at h
          cases hsub : rm_ingredients env fuel (env iid).ingredientIds
              (env iid).quantities (env iid).ingredients with
          | error e =>
            rw [hsub] at h
            simp only [] at h
            obtain rfl : e = ResolveError.ingredientNotFound := Except.error.inj h
            exact LoopINF.headSub iid ids recs r hget hrec
              (ih (env iid).ingredientIds (env iid).quantities (env iid).ingredients hsub)
          | ok l2 =>
            rw [hsub] at h
            simp only [] at h
            cases hrest : rm_ingredients env fuel ids qs.tail recs with
            | error e =>
              rw [hrest] at h
              simp only [] at h
              obtain rfl : e = ResolveError.ingredientNotFound := Except.error.inj h
              exact LoopINF.tail iid ids recs (ih ids qs.tail recs hrest)
            | ok rest =>
              rw [hrest] at h
              simp only [] at h
              cases h
        | false =>
          rw [hrec] at h
          simp only [if_false, Bool.false_eq_true, ite_false] at h
          cases hrest : rm_ingredients env fuel ids qs.tail recs with
          | error e =>
            rw [hrest] at h
            simp only [] at h
            obtain rfl : e = ResolveError.ingredientNotFound := Except.error.inj h
            exact LoopINF.tail iid ids recs (ih ids qs.tail recs hrest)
          | ok rest =>
            rw [hrest] at h
            simp only [] at h
            cases h

/-- Conversely, when a missing identifier exists somewhere in the
transitively resolved recipes, the ingredient loop can never succeed. -/
theorem inf_not_ok (env : Int → RecipeData) (ids : List Int)
    (recs : List IngredientRecord) (h : LoopINF env ids recs) :
    ∀ (fuel : Nat) (qs : List Int) (res : List ResIngredient),
      rm_ingredients env fuel ids qs recs ≠ .ok res := by
  induction h with
  | headMissing iid ids recs hmiss =>
    intro fuel qs res hok
    cases fuel with
    | zero => cases hok
    | succ fuel =>
      rw [rm_ingredients, hmiss] at hok
      cases hok
  | headSub iid ids recs r hfound hrec hsub ih =>
    intro fuel qs res hok
    cases fuel with
    | zero => cases hok
    | succ fuel =>
      rw [rm_ingredients, hfound] at hok
      simp only [hrec, if_true] at hok
      cases hsubv : rm_ingredients env fuel (env iid).ingredientIds
          (env iid).quantities (env iid).ingredients with
      | error e =>
        rw [hsubv] at hok
        cases hok
      | ok l2 => exact ih fuel (env iid).quantities l2 hsubv
  | tail iid ids recs hrest ih =>
    intro fuel qs res hok
    cases fuel with
    | zero => cases hok
    | succ fuel =>
      rw [rm_ingredients] at hok
      cases hget : get_ingredient_with_id iid recs with
      | error e =>
        rw [hget] at hok
        cases hok
      | ok r =>
        rw [hget] at hok
        simp only [] at hok
        cases hrec : r.hasRecipe with
        | true =>
          rw [hrec] at hok
          simp only [if_true] at hok
          cases hsubv : rm_ingredients env fuel (env iid).ingredientIds
              (env iid).quantities (env iid).ingredients with
          | error e =>
            rw [hsubv] at hok
            cases hok
          | ok l2 =>
            rw [hsubv] at hok
            simp only [] at hok
            cases hrestv : rm_ingredients env fuel ids qs.tail recs with
            | error e =>
              rw [hrestv] at hok
              cases hok
            | ok rest => exact ih fuel qs.tail rest hrestv
        | false =>
          rw [hrec] at hok
          simp only [if_false, Bool.false_eq_true, ite_false] at hok
          cases hrestv : rm_ingredients env fuel ids qs.tail recs with
          | error e =>
            rw [hrestv] at hok
            cases hok
          | ok rest => exact ih fuel qs.tail rest hrestv

theorem headD_eq_getD_zero (qs : List Int) : qs.headD 0 = qs.getD 0 0 := by
  cases qs <;> rfl

theorem tail_getD (qs : List Int) (i : Nat) : qs.tail.getD i 0 = qs.getD (i + 1) 0 := by
  cases qs <;> rfl

/-- A successful run of the ingredient loop covers every listed
identifier, in order: one resolved entry per identifier, carrying the
located record's name, `hasRecipe` and `secretRecipe` flags, the parallel
quantity, and a sub-recipe exactly when `hasRecipe` holds. -/
theorem rm_ok_coverage (env : Int → RecipeData) :
    ∀ (fuel : Nat) (ids qs : List Int) (recs : List IngredientRecord)
      (res : List ResIngredient),
      rm_ingredients env fuel ids qs recs = .ok res →
      res.length = ids.length ∧
      ∀ i : Nat, i < ids.length →
        ∃ (iid : Int) (r : IngredientRecord) (e : ResIngredient),
          ids[i]? = some iid
          ∧ get_ingredient_with_id iid recs = .ok r
          ∧ res[i]? = some e
          ∧ e.name = r.name ∧ e.quantity = qs.getD i 0
          ∧ e.hasRecipe = r.hasRecipe ∧ e.secretRecipe = r.secretRecipe
          ∧ (e.recipe.isSome ↔ r.hasRecipe = true) := by
  intro fuel
  induction fuel with
  | zero =>
    intro ids qs recs res h
    cases ids with
    | nil =>
      obtain rfl : ([] : List ResIngredient) = res := Except.ok.inj h
      exact ⟨rfl, fun i hi => absurd hi (Nat.not_lt_zero i)⟩
    | cons iid ids => cases h
  | succ fuel ih =>
    intro ids qs recs res h
    cases ids with
    | nil =>
      obtain rfl : ([] : List ResIngredient) = res := Except.ok.inj h
      exact ⟨rfl, fun i hi => absurd hi (Nat.not_lt_zero i)⟩
    | cons iid ids =>
      rw [rm_ingredients] at h
      cases hget : get_ingredient_with_id iid recs with
      | error e =>
        rw [hget] at h
        cases h
      | ok r =>
        rw [hget] at h
        simp only [] at h
        cases hrec : r.hasRecipe with
        | true =>
          rw [hrec] at h
          simp only [if_true] at h
          cases hsub : rm_ingredients env fuel (env iid).ingredientIds
              (env iid).quantities (env iid).ingredients with
          | error e =>
            rw [hsub] at h
            cases h
          | ok l2 =>
            rw [hsub] at h
            simp only [] at h
            cases hrest : rm_ingredients env fuel ids qs.tail recs with
            | error e =>
              rw [hrest] at h
              cases h
            | ok rest =>
              rw [hrest] at h
              simp only [] at h
              obtain rfl := (Except.ok.inj h).symm
              obtain ⟨hlen, hidx⟩ := ih ids qs.tail recs rest hrest
              constructor
              · simp [hlen]
              · intro i hi
                cases i with
                | zero =>
                  refine ⟨iid, r, ⟨r.name, qs.headD 0, true, r.secretRecipe,
                    some ((env iid).job, l2)⟩, by simp, hget, by simp, rfl, ?_, ?_, rfl, ?_⟩
                  · exact headD_eq_getD_zero qs
                  · exact hrec.symm
                  · simp [ResIngredient.recipe, hrec]
                | succ i =>
                  have hi2 : i < ids.length := Nat.lt_of_succ_lt_succ hi
                  obtain ⟨iid2, r2, e2, h1, h2, h3, h4, h5, h6, h7, h8⟩ := hidx i hi2
                  refine ⟨iid2, r2, e2, ?_, h2, ?_, h4, ?_, h6, h7, h8⟩
                  · simpa using h1
                  · simpa using h3
                  · rw [h5, tail_getD]
        | false =>
          rw [hrec] at h
          simp only [if_false, Bool.false_eq_true, ite_false] at h
          cases hrest : rm_ingredients env fuel ids qs.tail recs with
          | error e =>
            rw [hrest] at h
            cases h
          | ok rest =>
            rw [hrest] at h
            simp only [] at h
            obtain rfl := (Except.ok.inj h).symm
            obtain ⟨hlen, hidx⟩ := ih ids qs.tail recs rest hrest
            constructor
            · simp [hlen]
            · intro i hi
              cases i with
              | zero =>
                refine ⟨iid, r, ⟨r.name, qs.headD 0, false, r.secretRecipe, none⟩,
                  by simp, hget, by simp, rfl, ?_, ?_, rfl, ?_⟩
                · exact headD_eq_getD_zero qs
                · exact hrec.symm
                · simp [ResIngredient.recipe, hrec]
              | succ i =>
                have hi2 : i < ids.length := Nat.lt_of_succ_lt_succ hi
                obtain ⟨iid2, r2, e2, h1, h2, h3, h4, h5, h6, h7, h8⟩ := hidx i hi2
                refine ⟨iid2, r2, e2, ?_, h2, ?_, h4, ?_, h6, h7, h8⟩
                · simpa using h1
                · simpa using h3
                · rw [h5, tail_getD]

/-- C7.  For a fixed remote catalog in which every fetch succeeds (and a
terminating run: the result is not the embedding's `outOfFuel`), recipe
resolution raises `IngredientNotFound` exactly when some ingredient
identifier listed in the `ingredientIds` of the item's recipe — or,
transitively, of a resolved sub-recipe — has no record in that recipe's
own `ingredients` list; when raised the whole resolution aborts with that
error and no partial recipe is returned (the result is the error, not an
`ok` value); and otherwise resolution returns the recipe's job together
with one resolved entry per listed ingredient, in order, each carrying the
located record's name and flags, the parallel quantity, and a sub-recipe
exactly when the record has one. -/
theorem recipe_management_ingredient_not_found (env : Int → RecipeData)
    (fuel : Nat) (item_id : Int)
    (hfuel : recipe_management env fuel item_id ≠ .error .outOfFuel) :
    (recipe_management env fuel item_id = .error .ingredientNotFound
      ↔ RaisesINF env item_id)
    ∧ (∀ (job : String) (ings : List ResIngredient),
        recipe_management env fuel item_id = .ok (job, ings) →
        job = (env item_id).job
        ∧ ings.length = (env item_id).ingredientIds.length
        ∧ ∀ i : Nat, i < (env item_id).ingredientIds.length →
            ∃ (iid : Int) (r : IngredientRecord) (e : ResIngredient),
              (env item_id).ingredientIds[i]? = some iid
              ∧ get_ingredient_with_id iid (env item_id).ingredients = .ok r
              ∧ ings[i]? = some e
              ∧ e.name = r.name
              ∧ e.quantity = (env item_id).quantities.getD i 0
              ∧ e.hasRecipe = r.hasRecipe ∧ e.secretRecipe = r.secretRecipe
              ∧ (e.recipe.isSome ↔ r.hasRecipe = true)) := by
  constructor
  · constructor
    · intro h
      unfold recipe_management at h
      cases hrm : rm_ingredients env fuel (env item_id).ingredientIds
          (env item_id).quantities (env item_id).ingredients with
      | error e =>
        rw [hrm] at h
        simp only [] at h
        obtain rfl : e = ResolveError.ingredientNotFound := Except.error.inj h
        exact rm_error_inf env fuel _ _ _ hrm
      | ok l =>
        rw [hrm] at h
        simp only [] at h
        cases h
    · intro hraise
      unfold recipe_management at hfuel ⊢
      cases hrm : rm_ingredients env fuel (env item_id).ingredientIds
          (env item_id).quantities (env item_id).ingredients with
      | ok l =>
        exact absurd hrm
          (inf_not_ok env (env item_id).ingredientIds (env item_id).ingredients
            hraise fuel (env item_id).quantities l)
      | error e =>
        cases e with
        | ingredientNotFound => rfl
        | outOfFuel =>
          rw [hrm] at hfuel
          simp only [] at hfuel
          exact absurd rfl hfuel
  · intro job ings h
    unfold recipe_management at h
    cases hrm : rm_ingredients env fuel (env item_id).ingredientIds
        (env item_id).quantities (env item_id).ingredients with
    | error e =>
      rw [hrm] at h
      simp only [] at h
      cases h
    | ok l =>
      rw [hrm] at h
      simp only [] at h
      have hpair := Except.ok.inj h
      have hjob : job = (env item_id).job := (congrArg Prod.fst hpair).symm
      have hings : ings = l := (congrArg Prod.snd hpair).symm
      subst hings
      obtain ⟨hlen, hidx⟩ := rm_ok_coverage env fuel
        (env item_id).ingredientIds (env item_id).quantities
        (env item_id).ingredients ings hrm
      exact ⟨hjob, hlen, hidx⟩

/-- Witness for C7 at a concrete input: in `missingCatalog` the recipe of
item 0 lists identifier 7 whose record is absent, the run is not
out-of-fuel, and the theorem yields the `IngredientNotFound` outcome. -/
theorem recipe_management_ingredient_not_found_witness :
    recipe_management missingCatalog 1 0 = .error .ingredientNotFound :=
  (recipe_management_ingredient_not_found missingCatalog 1 0
    (fun h => ResolveError.noConfusion (Except.error.inj h))).1.mpr
    (LoopINF.headMissing 7 [] [] rfl)

theorem keys_dmodify {κ α : Type} [DecidableEq κ] (d : List (κ × α)) (k : κ)
    (f : α → α) : (dmodify d k f).map Prod.fst = d.map Prod.fst := by
  induction d with
  | nil => rfl
  | cons p ps ih =>
    by_cases h : p.1 = k <;> simp [dmodify, h] at ih ⊢ <;> exact ih

theorem not_mem_keys_of_dlookup_none {κ α : Type} [DecidableEq κ]
    (d : List (κ × α)) (k : κ) (h : dlookup d k = none) :
    ∀ p ∈ d, ¬ (p.1 = k) := by
  induction d with
  | nil => intro p hp; cases hp
  | cons q qs ih =>
    intro p hp
    rw [dlookup] at h
    by_cases hq : q.1 = k
    · rw [if_pos hq] at h
      cases h
    · rw [if_neg hq] at h
      cases hp with
      | head => exact hq
      | tail _ hp2 => exact ih h p hp2

theorem dmodify_eq_of_not_mem {κ α : Type} [DecidableEq κ] (d : List (κ × α))
    (k : κ) (f : α → α) (h : ∀ p ∈ d, ¬ (p.1 = k)) : dmodify d k f = d := by
  induction d with
  | nil => rfl
  | cons p ps ih =>
    simp only [dmodify, List.map_cons]
    rw [if_neg (h p (List.mem_cons_self p ps))]
    have := ih (fun q hq => h q (List.mem_cons_of_mem p hq))
    simp only [dmodify] at this
    rw [this]

theorem flatten_items_append (g1 g2 : List (Int × List ExtractedItem)) :
    flatten_items (g1 ++ g2) = flatten_items g1 ++ flatten_items g2 := by
  simp [flatten_items]

theorem flatten_items_cons (p : Int × List ExtractedItem)
    (ps : List (Int × List ExtractedItem)) :
    flatten_items (p :: ps) = p.2 ++ flatten_items ps := by
  simp [flatten_items]

/-- Appending an item to the group of a present key permutes the flattened
contents with the item appended, provided the keys are distinct. -/
theorem flatten_items_dmodify_append (g : List (Int × List ExtractedItem))
    (k : Int) (item : ExtractedItem)
    (hnd : (g.map Prod.fst).Nodup) (hk : (dlookup g k).isSome = true) :
    (flatten_items (dmodify g k (fun l => l ++ [item]))).Perm
      (flatten_items g ++ [item]) := by
  induction g with
  | nil => cases hk
  | cons p ps ih =>
    simp only [List.map_cons, List.nodup_cons] at hnd
    by_cases hp : p.1 = k
    · have hrest : dmodify ps k (fun l => l ++ [item]) = ps := by
        refine dmodify_eq_of_not_mem ps k _ (fun q hq hqk => hnd.1 ?_)
        rw [← hp] at hqk
        exact hqk ▸ (List.mem_map.mpr ⟨q, hq, hqk.symm ▸ rfl⟩)
      have hstep : dmodify (p :: ps) k (fun l => l ++ [item])
          = (p.1, p.2 ++ [item]) :: ps := by
        simp only [dmodify, List.map_cons, if_pos hp]
        rw [show List.map (fun q => if q.1 = k then (q.1, q.2 ++ [item]) else q) ps
            = dmodify ps k (fun l => l ++ [item]) from rfl, hrest]
      rw [hstep, flatten_items_cons, flatten_items_cons, List.append_assoc,
        List.append_assoc]
      exact List.Perm.append_left p.2 List.perm_append_comm
    · have hk2 : (dlookup ps k).isSome = true := by
        rw [dlookup, if_neg hp] at hk
        exact hk
      have hstep : dmodify (p :: ps) k (fun l => l ++ [item])
          = p :: dmodify ps k (fun l => l ++ [item]) := by
        simp only [dmodify, List.map_cons, if_neg hp]
      rw [hstep, flatten_items_cons, flatten_items_cons, List.append_assoc]
      exact List.Perm.append_left p.2 (ih hnd.2 hk2)


/-- Invariants of the grouping fold: distinct keys, every item stored under
its own level, and the flattened contents are a permutation of the already
stored items followed by the processed ones. -/
theorem group_fold_spec : ∀ (items : List ExtractedItem)
    (g : List (Int × List ExtractedItem)),
    (g.map Prod.fst).Nodup →
    (∀ p ∈ g, ∀ it ∈ p.2, it.level = p.1) →
    ((items.foldl
        (fun grouped_items item =>
          let grouped_items :=
            if (dlookup grouped_items item.level).isSome then grouped_items
            else dinsert grouped_items item.level []
          dmodify grouped_items item.level (fun l => l ++ [item])) g).map
        Prod.fst).Nodup
    ∧ (∀ p ∈ (items.foldl
        (fun grouped_items item =>
          let grouped_items :=
            if (dlookup grouped_items item.level).isSome then grouped_items
            else dinsert grouped_items item.level []
          dmodify grouped_items item.level (fun l => l ++ [item])) g),
        ∀ it ∈ p.2, it.level = p.1)
    ∧ (flatten_items (items.foldl
        (fun grouped_items item =>
          let grouped_items :=
            if (dlookup grouped_items item.level).isSome then grouped_items
            else dinsert grouped_items item.level []
          dmodify grouped_items item.level (fun l => l ++ [item])) g)).Perm
        (flatten_items g ++ items) := by
  intro items
  induction items with
  | nil =>
    intro g hnd hlev
    exact ⟨hnd, hlev, by simp⟩
  | cons item rest ih =>
    intro g hnd hlev
    rw [List.foldl_cons]
    set g1 := if (dlookup g item.level).isSome then g
      else dinsert g item.level [] with hg1
    have hnd1 : (g1.map Prod.fst).Nodup := by
      rw [hg1]
      by_cases h : (dlookup g item.level).isSome
      · rw [if_pos h]; exact hnd
      · rw [if_neg h]
        unfold dinsert
        rw [List.map_append]
        simp only [List.map_cons, List.map_nil]
        rw [List.nodup_append]
        refine ⟨hnd, List.nodup_singleton _, ?_⟩
        intro a ha hb
        have hnone : dlookup g item.level = none :=
          Option.not_isSome_iff_eq_none.mp h
        obtain ⟨p, hp, hpa⟩ := List.mem_map.mp ha
        have hne := not_mem_keys_of_dlookup_none g item.level hnone p hp
        simp only [List.mem_singleton] at hb
        rw [hb] at hpa
        exact hne hpa
    have hlev1 : ∀ p ∈ g1, ∀ it ∈ p.2, it.level = p.1 := by
      rw [hg1]
      by_cases h : (dlookup g item.level).isSome
      · rw [if_pos h]; exact hlev
      · rw [if_neg h]
        intro p hp
        rcases List.mem_append.mp hp with hp1 | hp2
        · exact hlev p hp1
        · simp only [List.mem_singleton] at hp2
          subst hp2
          intro it hit
          cases hit
    have hk1 : (dlookup g1 item.level).isSome = true := by
      rw [hg1]
      by_cases h : (dlookup g item.level).isSome
      · rw [if_pos h]; exact h
      · rw [if_neg h]
        rw [dlookup_dinsert]
        have hnone : dlookup g item.level = none :=
          Option.not_isSome_iff_eq_none.mp h
        simp [hnone]
    have hnd2 : ((dmodify g1 item.level (fun l => l ++ [item])).map Prod.fst).Nodup := by
      rw [keys_dmodify]; exact hnd1
    have hlev2 : ∀ p ∈ dmodify g1 item.level (fun l => l ++ [item]),
        ∀ it ∈ p.2, it.level = p.1 := by
      intro p hp it hit
      obtain ⟨q, hq, hpq⟩ := List.mem_map.mp hp
      by_cases hqk : q.1 = item.level
      · rw [if_pos hqk] at hpq
        subst hpq
        rcases List.mem_append.mp hit with h1 | h2
        · exact hlev1 q hq it h1
        · simp only [List.mem_singleton] at h2
          subst h2
          exact hqk.symm
      · rw [if_neg hqk] at hpq
        subst hpq
        exact hlev1 q hq it hit
    obtain ⟨ha, hb, hc⟩ := ih (dmodify g1 item.level (fun l => l ++ [item])) hnd2 hlev2
    refine ⟨ha, hb, ?_⟩
    refine hc.trans ?_
    have hstep : (flatten_items (dmodify g1 item.level (fun l => l ++ [item]))).Perm
        (flatten_items g ++ [item]) := by
      have h1 := flatten_items_dmodify_append g1 item.level item hnd1 hk1
      refine h1.trans ?_
      have : flatten_items g1 = flatten_items g := by
        rw [hg1]
        by_cases h : (dlookup g item.level).isSome
        · rw [if_pos h]
        · rw [if_neg h]
          show flatten_items (g ++ [(item.level, [])]) = _
          rw [flatten_items_append]
          simp [flatten_items]
      rw [this]
    refine (hstep.append_right rest).trans ?_
    rw [List.append_assoc]
    exact List.Perm.refl _

theorem sort_grouped_spec (g : List (Int × List ExtractedItem))
    (hlev : ∀ p ∈ g, ∀ it ∈ p.2, it.level = p.1) :
    ((sort_grouped_items_by_name g).map Prod.fst = g.map Prod.fst)
    ∧ (flatten_items (sort_grouped_items_by_name g)).Perm (flatten_items g)
    ∧ (∀ p ∈ sort_grouped_items_by_name g, ∀ it ∈ p.2, it.level = p.1)
    ∧ (∀ p ∈ sort_grouped_items_by_name g,
        p.2.Pairwise (fun a b : ExtractedItem => a.name.toLower ≤ b.name.toLower)) := by
  refine ⟨?_, ?_, ?_, ?_⟩
  · simp [sort_grouped_items_by_name]
  · induction g with
    | nil => exact List.Perm.refl _
    | cons p ps ih =>
      show flatten_items ((p.1, sort_items_by_name p.2) ::
        sort_grouped_items_by_name ps) |>.Perm _
      rw [flatten_items_cons, flatten_items_cons]
      exact List.Perm.append (List.mergeSort_perm p.2 _)
        (ih (fun q hq => hlev q (List.mem_cons_of_mem p hq)))
  · intro p hp it hit
    obtain ⟨q, hq, hpq⟩ := List.mem_map.mp hp
    subst hpq
    have hmem : it ∈ q.2 :=
      (List.mergeSort_perm q.2 _).mem_iff.mp hit
    exact hlev q hq it hmem
  · intro p hp
    obtain ⟨q, hq, hpq⟩ := List.mem_map.mp hp
    subst hpq
    show (sort_items_by_name q.2).Pairwise _
    have hsorted := @List.sorted_mergeSort ExtractedItem
      (fun a b : ExtractedItem => decide (a.name.toLower ≤ b.name.toLower))
      (fun a b c hab hbc => by
        simp only [decide_eq_true_eq] at hab hbc ⊢
        exact le_trans hab hbc)
      (fun a b => by
        simp only [Bool.or_eq_true, decide_eq_true_eq]
        exact le_total a.name.toLower b.name.toLower)
      q.2
    exact hsorted.imp (fun h => by simpa using h)

theorem sort_group_by_level_spec (g : List (Int × List ExtractedItem))
    (hnd : (g.map Prod.fst).Nodup) :
    ((flatten_items (sort_group_by_level g)).Perm (flatten_items g))
    ∧ (∀ p ∈ sort_group_by_level g, p ∈ g)
    ∧ (sort_group_by_level g).Pairwise (fun a b => b.1 < a.1) := by
  have hperm : (sort_group_by_level g).Perm g := List.mergeSort_perm g _
  refine ⟨?_, ?_, ?_⟩
  · exact (hperm.map (fun p => p.2)).flatten
  · exact fun p hp => hperm.mem_iff.mp hp
  · have hsorted := @List.sorted_mergeSort (Int × List ExtractedItem)
      (fun a b : Int × List ExtractedItem => decide (b.1 ≤ a.1))
      (fun a b c hab hbc => by
        simp only [decide_eq_true_eq] at hab hbc ⊢
        exact le_trans hbc hab)
      (fun a b => by
        simp only [Bool.or_eq_true, decide_eq_true_eq]
        exact le_total b.1 a.1)
      g
    have hle : (sort_group_by_level g).Pairwise (fun a b => b.1 ≤ a.1) :=
      hsorted.imp (fun h => by simpa using h)
    have hnd2 : ((sort_group_by_level g).map Prod.fst).Nodup :=
      ((hperm.map Prod.fst).nodup_iff).mpr hnd
    have hne : (sort_group_by_level g).Pairwise (fun a b => a.1 ≠ b.1) :=
      (List.pairwise_map.mp hnd2)
    exact (hle.and hne).imp (fun h => lt_of_le_of_ne h.1 (fun hh => h.2 hh.symm))

theorem flatten_items_pairwise (gs : List (Int × List ExtractedItem))
    (hlev : ∀ p ∈ gs, ∀ it ∈ p.2, it.level = p.1)
    (hname : ∀ p ∈ gs,
      p.2.Pairwise (fun a b : ExtractedItem => a.name.toLower ≤ b.name.toLower))
    (hdesc : gs.Pairwise (fun a b => b.1 < a.1)) :
    (flatten_items gs).Pairwise (fun a b : ExtractedItem =>
      b.level < a.level ∨ (a.level = b.level ∧ a.name.toLower ≤ b.name.toLower)) := by
  induction gs with
  | nil => exact List.Pairwise.nil
  | cons p ps ih =>
    rw [flatten_items_cons]
    rw [List.pairwise_cons] at hdesc
    refine List.pairwise_append.mpr ⟨?_, ?_, ?_⟩
    · refine (hname p (List.mem_cons_self p ps)).imp_of_mem ?_
      intro a b ha hb hab
      right
      exact ⟨(hlev p (List.mem_cons_self p ps) a ha).trans
        (hlev p (List.mem_cons_self p ps) b hb).symm, hab⟩
    · exact ih (fun q hq => hlev q (List.mem_cons_of_mem p hq))
        (fun q hq => hname q (List.mem_cons_of_mem p hq)) hdesc.2
    · intro a ha b hb
      obtain ⟨l2, hl2, hbl2⟩ := List.mem_flatten.mp hb
      obtain ⟨q, hq, hql⟩ := List.mem_map.mp hl2
      left
      have hb2 : b.level = q.1 := hlev q (List.mem_cons_of_mem p hq) b (hql ▸ hbl2)
      have ha2 : a.level = p.1 := hlev p (List.mem_cons_self p ps) a ha
      rw [hb2, ha2]
      exact hdesc.1 q hq

/-- C9.  The pipeline `flatten_items (sort_group_by_level
(sort_grouped_items_by_name (group_items_by_level items)))` applied by
`job_management` to the fetched items returns a permutation of its input
ordered by level strictly descending and, within a level, by
case-insensitive name ascending. -/
theorem job_items_pipeline_sorted (items : List ExtractedItem) :
    (job_items_pipeline items).Perm items
    ∧ (job_items_pipeline items).Pairwise (fun a b : ExtractedItem =>
        b.level < a.level ∨ (a.level = b.level ∧ a.name.toLower ≤ b.name.toLower)) := by
  obtain ⟨hnd0, hlev0, hflat0⟩ := group_fold_spec items [] (by simp) (by simp)
  set g0 := group_items_by_level items with hg0
  have hflat0b : (flatten_items g0).Perm items := by
    refine hflat0.trans ?_
    simp [flatten_items]
  obtain ⟨hkeys1, hflat1, hlev1, hname1⟩ := sort_grouped_spec g0 hlev0
  set g1 := sort_grouped_items_by_name g0 with hg1
  have hnd1 : (g1.map Prod.fst).Nodup := by rw [hg1, hkeys1]; exact hnd0
  obtain ⟨hflat2, hmem2, hdesc2⟩ := sort_group_by_level_spec g1 hnd1
  set g2 := sort_group_by_level g1 with hg2
  constructor
  · show (flatten_items g2).Perm items
    exact hflat2.trans (hflat1.trans hflat0b)
  · show (flatten_items g2).Pairwise _
    refine flatten_items_pairwise g2 ?_ ?_ hdesc2
    · exact fun q hq => hlev1 q (hmem2 q hq)
    · exact fun q hq => hname1 q (hmem2 q hq)

end DofusDB
